import Mathlib

/-!
Verification development for the Test_Run_Engine repository.

The definitions below are a shallow embedding of the Python sources
`TRE_json.py` (matcher, payload sanitizer, payload parser) and
`TRE_online.py` (the `SessionManager` sequential step machine).
Strings are modelled as `String`/`List Char`; Python regular-expression
substitutions used by the sanitizer are embedded as explicit leftmost-scan
algorithms with the same backtracking order as CPython `re`.  Scanners that
consume a variable number of characters per step take an explicit fuel
argument (always called with at least the length of the input, and every
iteration consumes at least one character, so the fuel never runs out).
-/

/-! ### Character classes (ASCII, as used by the Python code on its inputs) -/

/-- Python `str.strip()` / `\s` whitespace, restricted to ASCII
(space, tab, newline, carriage return, vertical tab, form feed). -/
def isPySpace (c : Char) : Bool :=
  c = ' ' || c = '\t' || c = '\n' || c = '\r' || c = '\x0b' || c = '\x0c'

/-- ASCII uppercase letter, `[A-Z]`. -/
def isUpperAZ (c : Char) : Bool := 'A' ≤ c && c ≤ 'Z'

/-- ASCII lowercase letter, `[a-z]`. -/
def isLowerAZ (c : Char) : Bool := 'a' ≤ c && c ≤ 'z'

/-- ASCII digit, `[0-9]`. -/
def isDigit09 (c : Char) : Bool := '0' ≤ c && c ≤ '9'

/-- Python `\w` word character (ASCII): letters, digits, underscore. -/
def isWordCh (c : Char) : Bool :=
  isUpperAZ c || isLowerAZ c || isDigit09 c || c = '_'

/-- Characters kept by the sanitizer's printable filter:
`(32 <= ord(ch) <= 126) or ch in "\t "` (TRE_json.py line 195). -/
def keepPrintable (c : Char) : Bool :=
  (32 ≤ c.toNat && c.toNat ≤ 126) || c = '\t'

/-! ### Generic string helpers (Python string methods on `List Char`) -/

/-- Length of the longest prefix of `l` whose characters satisfy `p`. -/
def countWhile (p : Char → Bool) : List Char → Nat
  | [] => 0
  | c :: rs => if p c then countWhile p rs + 1 else 0

/-- Python `str.lstrip()` (whitespace from the left). -/
def lstripL (l : List Char) : List Char := l.dropWhile isPySpace

/-- Python `str.strip()` (whitespace from both ends). -/
def stripL (l : List Char) : List Char :=
  ((l.dropWhile isPySpace).reverse.dropWhile isPySpace).reverse

/-- Python `str.strip()` on `String`. -/
def pyStrip (s : String) : String := String.mk (stripL s.data)

/-- Python `str.replace(pat, rep)` for a non-empty `pat`: replace every
non-overlapping occurrence, scanning left to right.  `fuel` bounds the scan;
it is always called with `fuel = s.length`, and every iteration consumes at
least one character of `s`. -/
def pyReplaceGo (pat rep : List Char) : Nat → List Char → List Char
  | 0, s => s
  | _ + 1, [] => []
  | f + 1, c :: rs =>
    if pat.isPrefixOf (c :: rs) then
      rep ++ pyReplaceGo pat rep f ((c :: rs).drop pat.length)
    else
      c :: pyReplaceGo pat rep f rs

/-- Python `s.replace(pat, rep)` for a non-empty `pat`. -/
def pyReplace (s pat rep : List Char) : List Char :=
  pyReplaceGo pat rep s.length s

/-- Position of the first occurrence of `pat` in `s` (Python `str.find`),
`none` when absent. -/
def pyFindGo (pat : List Char) : List Char → Option Nat
  | [] => if pat.isPrefixOf [] then some 0 else none
  | c :: rs =>
    if pat.isPrefixOf (c :: rs) then some 0
    else (pyFindGo pat rs).map (· + 1)

/-- Python `s.find(pat)` returning an `Option` instead of `-1`. -/
def pyFind (s pat : List Char) : Option Nat := pyFindGo pat s

/-- Position of the last occurrence of `pat` in `s` (Python `str.rfind`),
`none` when absent. -/
def pyRFind (s pat : List Char) : Option Nat :=
  (pyFind s.reverse pat.reverse).map (fun i => s.length - pat.length - i)

/-! ### The payload sanitizer, `TRE_json.sanitize_payload` (lines 191-202)

```
s = payload.replace("\r", " ").replace("\n", " ")
s = "".join(ch for ch in s if (32 <= ord(ch) <= 126) or ch in "\t ")
for tok in {"TELETELE", "AOTA", "CCU2s", "CCU2c"}: s = s.replace(tok, " ")
s = _re.sub(r"\b([A-Z]{3,10})(?:\1)+\b", r"\1", s)
s = _re.sub(r"=\s*[A-Z]{2,10}\d*[a-z]?\b", " ", s)
s = _re.sub(r"\s*>>\s*", " >> ", s)
s = _re.sub(r"\s+", " ", s).strip()
```
-/

/-- Stage 1: `replace("\r", " ").replace("\n", " ")` — a character map. -/
def crlfChar (c : Char) : Char := if c = '\r' || c = '\n' then ' ' else c

/-- Stage 3 tokens.  The Python source iterates over a *set* of these four
strings; the iteration order does not matter because no two tokens can
overlap in a string and the replacement (a space) cannot create a new
occurrence, so we fix the textual order. -/
def denyTokens : List (List Char) :=
  ["TELETELE".data, "AOTA".data, "CCU2s".data, "CCU2c".data]

/-- Stage 3: remove the known junk tokens, replacing each with a space. -/
def removeTokens (l : List Char) : List Char :=
  denyTokens.foldl (fun s tok => pyReplace s tok " ".data) l

/-! Stage 4: `re.sub(r"\b([A-Z]{3,10})(?:\1)+\b", r"\1", s)`.
CPython backtracking at a match position: the group `[A-Z]{3,10}` is greedy
(length `L` tried from 10 down to 3), then `(?:\1)+` is greedy (`k` full
repeats tried from the maximal count down to 1), then `\b` must hold after
the match.  `\b` before the match reduces to "previous character is absent
or not a word character" because the first matched character is uppercase. -/

/-- Number of leading copies of `g` in `l` (for `(?:\1)+`). -/
def countRepeats (g : List Char) : Nat → List Char → Nat
  | 0, _ => 0
  | f + 1, l =>
    if g.isPrefixOf l && g.length > 0 then
      countRepeats g f (l.drop g.length) + 1
    else 0

/-- `\b` at a position whose preceding character is a word character:
holds at end of input or before a non-word character. -/
def wordBoundaryAfter : List Char → Bool
  | [] => true
  | c :: _ => !isWordCh c

/-- Try `(?:\1)+` with `k` repeats, `k` descending, requiring `\b` after;
`tail` is the input after the first copy of `g`. -/
def collapseFindK (g tail : List Char) : Nat → Option Nat
  | 0 => none
  | k + 1 =>
    if wordBoundaryAfter (tail.drop (g.length * (k + 1))) then some (k + 1)
    else collapseFindK g tail k

/-- Try a group of exactly `L` uppercase characters at the head of `rest`;
on success return the group and the total match length. -/
def collapseTryL (rest : List Char) (L : Nat) : Option (List Char × Nat) :=
  let g := rest.take L
  if g.length = L && g.all isUpperAZ then
    let tail := rest.drop L
    match collapseFindK g tail (countRepeats g tail.length tail) with
    | some k => some (g, L * (k + 1))
    | none => none
  else none

/-- Try group lengths from `L` down to 3. -/
def collapseTryUpto (rest : List Char) : Nat → Option (List Char × Nat)
  | 0 => none
  | 1 => none
  | 2 => none
  | L + 3 =>
    match collapseTryL rest (L + 3) with
    | some r => some r
    | none => collapseTryUpto rest (L + 2)

/-- Leftmost scan for stage 4; `prev` is the character before the current
position (for `\b`).  On a match the group replaces the whole match and the
scan resumes after it; otherwise the scan advances one character. -/
def collapseGo : Nat → Option Char → List Char → List Char
  | 0, _, rest => rest
  | _ + 1, _, [] => []
  | f + 1, prev, c :: rs =>
    let boundary := match prev with
      | none => true
      | some p => !isWordCh p
    if boundary then
      match collapseTryUpto (c :: rs) 10 with
      | some (g, len) =>
          g ++ collapseGo f (some (g.getLastD 'A')) ((c :: rs).drop len)
      | none => c :: collapseGo f (some c) rs
    else c :: collapseGo f (some c) rs

/-- Stage 4: collapse immediately repeated all-caps tokens (`OTAOTA → OTA`). -/
def collapseRepeats (l : List Char) : List Char := collapseGo l.length none l

/-! Stage 5: `re.sub(r"=\s*[A-Z]{2,10}\d*[a-z]?\b", " ", s)`.
Backtracking: `\s*` is forced maximal (a shorter take leaves whitespace
where `[A-Z]` is required), `[A-Z]{2,10}` greedy descending, `\d*` greedy
descending, `[a-z]?` tried with the character then without, then `\b`. -/

/-- After the digits: try `[a-z]?` (take one lowercase, then none) followed
by `\b`; returns the number of extra characters consumed. -/
def eqTagAfterDigits : List Char → Option Nat
  | [] => some 0
  | c :: r5 =>
    if isLowerAZ c && wordBoundaryAfter r5 then some 1
    else if !isWordCh c then some 0
    else none

/-- Try `\d*` with exactly `d` digits, `d` descending; `r3` is the input
after the uppercase run.  Returns digits + optional-lowercase consumed. -/
def eqTagTryD (r3 : List Char) : Nat → Option Nat
  | 0 =>
    (eqTagAfterDigits r3).map (fun x => x)
  | d + 1 =>
    match eqTagAfterDigits (r3.drop (d + 1)) with
    | some x => some (d + 1 + x)
    | none => eqTagTryD r3 d

/-- Try `[A-Z]{2,10}` with exactly `U` characters, `U` descending from 10;
`r2` is the input after `=\s*`.  Returns the total consumed after `\s*`. -/
def eqTagTryU (r2 : List Char) : Nat → Option Nat
  | 0 => none
  | 1 => none
  | U + 2 =>
    let g := r2.take (U + 2)
    if g.length = U + 2 && g.all isUpperAZ then
      match eqTagTryD (r2.drop (U + 2)) (countWhile isDigit09 (r2.drop (U + 2))) with
      | some rest => some (U + 2 + rest)
      | none => eqTagTryU r2 (U + 1)
    else eqTagTryU r2 (U + 1)

/-- Leftmost scan for stage 5; each match (length ≥ 3) is replaced by a
single space. -/
def eqTagGo : Nat → List Char → List Char
  | 0, rest => rest
  | _ + 1, [] => []
  | f + 1, c :: rs =>
    if c = '=' then
      let w := countWhile isPySpace rs
      match eqTagTryU (rs.drop w) 10 with
      | some consumed => ' ' :: eqTagGo f (rs.drop (w + consumed))
      | none => c :: eqTagGo f rs
    else c :: eqTagGo f rs

/-- Stage 5: strip header-like tails such as `=CCU2x`. -/
def eqTagStrip (l : List Char) : List Char := eqTagGo l.length l

/-! Stage 6: `re.sub(r"\s*>>\s*", " >> ", s)`.  At a match position `\s*` is
forced maximal before `>>` (a shorter take leaves whitespace where `>` is
required) and maximal after. -/

/-- Leftmost scan for stage 6. -/
def gtgtGo : Nat → List Char → List Char
  | 0, rest => rest
  | _ + 1, [] => []
  | f + 1, c :: rs =>
    let w := countWhile isPySpace (c :: rs)
    match (c :: rs).drop w with
    | '>' :: '>' :: r2 =>
      let w2 := countWhile isPySpace r2
      ' ' :: '>' :: '>' :: ' ' :: gtgtGo f (r2.drop w2)
    | _ => c :: gtgtGo f rs

/-- Stage 6: normalize spacing around `>>`. -/
def gtgtNorm (l : List Char) : List Char := gtgtGo l.length l

/-- Stage 7: `re.sub(r"\s+", " ", s)` — collapse every maximal whitespace
run to a single space.  `inRun` records whether the previous character was
whitespace (its space has already been emitted). -/
def wsCollapseGo : Bool → List Char → List Char
  | _, [] => []
  | inRun, c :: rs =>
    if isPySpace c then
      if inRun then wsCollapseGo true rs
      else ' ' :: wsCollapseGo true rs
    else c :: wsCollapseGo false rs

/-- Stage 7 entry point. -/
def wsCollapse (l : List Char) : List Char := wsCollapseGo false l

/-- `TRE_json.sanitize_payload` (lines 191-202) on `List Char`. -/
def sanitizeList (l : List Char) : List Char :=
  stripL (wsCollapse (gtgtNorm (eqTagStrip (collapseRepeats
    (removeTokens ((l.map crlfChar).filter keepPrintable))))))

/-- `TRE_json.sanitize_payload` (lines 191-202): the unified payload
sanitizer (`if not payload: return ""`, then the seven stages). -/
def sanitize_payload (s : String) : String :=
  if s.data.isEmpty then "" else String.mk (sanitizeList s.data)

/-! ### Payload extraction and `parse_dlt`

`TRE_json._extract_payload` (the nested definition inside `line_matches`,
lines 288-322) implements the documented best-effort payload slice:
(1) from a `"[EVALUATION]:"` marker, (2) after the last `]`, (3) a colon
slice before column 180, (4) the trimmed line.  The final fallback
`return line.strip()` was mis-indented into the enclosing function's body,
but branches 1-3 and the docstring fix the intended algorithm; branch 4
follows the docstring. -/

/-- Branches (3) and (4) of `_extract_payload`: colon slice before column
180, else the stripped line. -/
def extractColonSliceOrStrip (l : List Char) : String :=
  match pyFind l ": ".data with
  | some p =>
    if 0 < p && p < 180 && (lstripL (l.drop (p + 2))).length ≠ 0 then
      String.mk (lstripL (l.drop (p + 2)))
    else String.mk (stripL l)
  | none => String.mk (stripL l)

/-- The payload-slice heuristic of `_extract_payload`
(TRE_json.py lines 288-322). -/
def extract_payload (s : String) : String :=
  let l := s.data
  match pyRFind l "[EVALUATION]:".data with
  | some pos => String.mk (stripL (l.drop pos))
  | none =>
    match pyRFind l "]".data with
    | some rbr =>
      if rbr + 1 < l.length && (stripL (l.drop (rbr + 1))).length ≠ 0 then
        String.mk (stripL (l.drop (rbr + 1)))
      else extractColonSliceOrStrip l
    | none => extractColonSliceOrStrip l

/-- `TRE_json.parse_dlt` (lines 721-732).  Its body calls a module-level
`extract_payload` that does not exist in `TRE_json` (only a nested helper
of that name exists inside `line_matches`), so the call raises `NameError`,
the bare `except Exception` catches it, and the function returns
`(None, None, None, line)` for every input: the payload is the raw line. -/
def parse_dlt (line : String) : Option String × Option String × Option String × String :=
  (none, none, none, line)

/-! ### The rule matcher, `TRE_json.line_matches` (lines 208-434)

`TRE_json.py` defines `line_matches` twice; the second definition (line
208) shadows the first.  In the second definition the fallback
`return line.strip()` of the nested `_extract_payload` helper is indented
at the level of `line_matches` itself (line 322), so after reading the
configuration the function unconditionally executes `return line.strip()`:
it returns a *string* (Python-truthy exactly when the stripped line is
non-empty), and the candidate-building and pattern-matching code below
line 322 is unreachable. -/

/-- A Python value that is either a `bool` or a `str` (the two types
`line_matches` can actually return). -/
inductive PyVal where
  | bool (b : Bool)
  | str (s : String)
deriving DecidableEq, Repr, Inhabited

/-- Python truthiness of a `PyVal` (`if line_matches(...)`). -/
def PyVal.truthy : PyVal → Bool
  | .bool b => b
  | .str s => !s.data.isEmpty

/-- A rule-body dictionary as read by `line_matches` and the online engine.
Field defaults are the dictionary-lookup defaults of the second
`line_matches` definition (`literal` false, `ignore_case` true,
`equals` false, `payload_only` true) and of `_try_find` (`min_count` 1).
`max_count` is read by `_try_find` but never used. -/
structure Cfg where
  pattern : String
  literal : Bool := false
  ignore_case : Bool := true
  equals : Bool := false
  payload_only : Bool := true
  min_count : Int := 1
deriving DecidableEq, Repr, Inhabited

/-- `TRE_json.line_matches` (second definition, lines 208-434) as executed:
an empty pattern returns `False`; otherwise the mis-indented fallback
`return line.strip()` returns the stripped raw line as a string. -/
def line_matches (line : String) (cfg : Cfg) : PyVal :=
  if cfg.pattern = "" then .bool false
  else .str (pyStrip line)

/-! ### The online step machine, `TRE_online.SessionManager`

The model covers the state and handlers that drive step outcomes:
`_process_line_dispatch` / `_process_line_sequential` (module constant
`VERIFY_SEQUENTIAL = True`), `_try_find`, `_try_sequence`,
`_scan_history_for_step`, `_check_timeouts`, `_finalize_unfinished`,
`_run_pending_actions` and `_emit`.  Debug logging, the per-step `_hist`
deques (used only for AI logging) and the AI hooks are side-effect-only
and omitted.  Wall-clock instants and timeouts are modelled as integers
(the Python code holds floats; every comparison the model performs is
exact on integer-valued instants, so the embedding restricts the time
domain without changing behavior on it).  The external
Action Executor (`_perform_action`, which shells out to adb) is modelled
as an oracle function from the opaque action payload to `(ok, message)`. -/

/-- One element of a `sequence` rule body: a plain string or a rule dict
(`TRE_online._try_sequence` line 641). -/
inductive SeqElem where
  | str (s : String)
  | cfg (c : Cfg)
deriving DecidableEq, Repr, Inhabited

/-- `node if isinstance(node, dict) else {"pattern": str(node), "literal": True}`. -/
def SeqElem.toCfg : SeqElem → Cfg
  | .str s => { pattern := s, literal := true }
  | .cfg c => c

/-- The rule body of a step: exactly one of `find` / `not_find` /
`sequence` / `action` is present, or none (`unknown`), mirroring the key
tests of `_process_line_sequential` in their source order. -/
inductive Rule where
  | find (cfg : Cfg)
  | notFind (cfg : Cfg)
  | sequence (elems : List SeqElem)
  | action (a : String)
  | unknown
deriving DecidableEq, Repr, Inhabited

/-- Evidence line attached to a step outcome.  The Python code passes
strings; timeout and stop messages are formatted strings, modelled here as
structured constructors carrying the same data. -/
inductive Evidence where
  | payload (s : String)
  | timeoutNotSeen (tmo : Int)
  | timeoutAction (tmo : Int)
  | timeoutFail (tmo : Int)
  | finalNotSeen (reason : String)
  | finalNeverSeen (reason : String)
  | actionMsg (s : String)
  | unknownRule
deriving DecidableEq, Repr, Inhabited

/-- A step dictionary with its machine-owned progress fields
(`_done`, `_seq_idx`, `_t0`, `_final_result`, `_final_line`). -/
structure Step where
  rule : Rule
  timeout : Option Int := none
  done : Bool := false
  seqIdx : Nat := 0
  t0 : Int := 0
  finalResult : Option String := none
  finalLine : Option Evidence := none
deriving DecidableEq, Repr, Inhabited

/-- One observer notification `on_step_update(idx, …, result, line)`. -/
structure Emit where
  idx : Nat
  result : String
  line : Option Evidence
deriving DecidableEq, Repr, Inhabited

/-- The mutable session state relevant to step outcomes: the step list,
the per-step match counters `_counts`, the (never-written) payload history
`_payload_history`, the action pointer and the running flag. -/
structure Session where
  tests : List Step
  counts : List Nat
  payloadHistory : List String
  actionPtr : Nat := 1
  running : Bool := true
deriving DecidableEq, Repr, Inhabited

/-- 1-based step lookup (`self.tests[idx-1]` with `idx ≥ 1`). -/
def getStep (ss : List Step) (i : Nat) : Option Step :=
  if i = 0 then none else ss.get? (i - 1)

/-- 1-based step update. -/
def updStep (ss : List Step) (i : Nat) (f : Step → Step) : List Step :=
  match getStep ss i with
  | some t => ss.set (i - 1) (f t)
  | none => ss

/-- `_first_unfinished_idx` (TRE_online.py lines 468-472). -/
def firstUnfinishedAux : List Step → Nat → Option Nat
  | [], _ => none
  | t :: ts, i => if t.done then firstUnfinishedAux ts (i + 1) else some i

/-- The index of the first step whose `_done` flag is unset. -/
def Session.firstUnfinished (s : Session) : Option Nat :=
  firstUnfinishedAux s.tests 1

/-- `_normalize_cfg` (lines 612-616): `FORCE_PAYLOAD_ONLY` is `True`, so
`payload_only` is forced on. -/
def normalizeCfg (c : Cfg) : Cfg := { c with payload_only := true }

/-- `_emit` (lines 689-695) combined with the `_done` assignment that
always precedes it: mark the step done, record the final result and
evidence, and notify the observer once. -/
def finalizeStep (s : Session) (idx : Nat) (result : String)
    (line : Option Evidence) : Session × List Emit :=
  ({ s with tests := updStep s.tests idx (fun t =>
      { t with done := true, finalResult := some result, finalLine := line }) },
   [⟨idx, result, line⟩])

/-- `_try_find` (lines 618-633): on a truthy match bump the per-step
counter and report whether it reached `min_count`. -/
def tryFind (counts : List Nat) (idx : Nat) (cfg : Cfg) (payload : String) :
    Bool × List Nat :=
  let c := normalizeCfg cfg
  let need : Int := c.min_count
  if (line_matches payload c).truthy then
    let hv := (counts.getD (idx - 1) 0) + 1
    ((hv : Int) ≥ need, counts.set (idx - 1) hv)
  else (false, counts)

/-- `_try_sequence` (lines 635-652): test the payload against the current
unmatched element only; on a truthy match advance the cursor and report
whether it reached the end. -/
def trySequence (t : Step) (elems : List SeqElem) (payload : String) :
    Bool × Step :=
  let prog := t.seqIdx
  if prog ≥ elems.length then (true, t)
  else
    match elems.get? prog with
    | none => (true, t)
    | some node =>
      let c := normalizeCfg node.toCfg
      if (line_matches payload c).truthy then
        let t1 := { t with seqIdx := prog + 1 }
        (decide (prog + 1 ≥ elems.length), t1)
      else (false, t)

/-- `_process_line_sequential` (lines 474-510): dispatch one payload to the
first unfinished step.  `perform` is the external Action Executor. -/
def processLineSequential (perform : String → Bool × String) (s : Session)
    (payload : String) : Session × List Emit :=
  match s.firstUnfinished with
  | none => (s, [])
  | some idx =>
    match getStep s.tests idx with
    | none => (s, [])
    | some t =>
      match t.rule with
      | .action a =>
        let (ok, msg) := perform a
        finalizeStep s idx (if ok then "PASS" else "FAIL") (some (.actionMsg msg))
      | .find cfg =>
        let (hit, counts1) := tryFind s.counts idx cfg payload
        let s1 := { s with counts := counts1 }
        if hit then finalizeStep s1 idx "PASS" (some (.payload payload))
        else (s1, [])
      | .notFind cfg =>
        if (line_matches payload (normalizeCfg cfg)).truthy then
          finalizeStep s idx "FAIL" (some (.payload payload))
        else (s, [])
      | .sequence elems =>
        let (doneNow, t1) := trySequence t elems payload
        let s1 := { s with tests := updStep s.tests idx (fun _ => t1) }
        if doneNow then finalizeStep s1 idx "PASS" (some (.payload payload))
        else (s1, [])
      | .unknown => finalizeStep s idx "ERROR" (some .unknownRule)

/-- The payload computed by `_process_line_dispatch` (lines 370-394):
`parse_dlt` (which returns the raw line, see above) then
`sanitize_payload`. -/
def dispatchPayload (line : String) : String :=
  sanitize_payload (parse_dlt line).2.2.2

/-- `_process_line_dispatch` (lines 370-394) with `VERIFY_SEQUENTIAL = True`. -/
def processLineDispatch (perform : String → Bool × String) (s : Session)
    (line : String) : Session × List Emit :=
  processLineSequential perform s (dispatchPayload line)

/-- `_current_timeout_s` (lines 655-658): an explicit non-negative numeric
timeout wins; otherwise step 1 defaults to 120 s and the rest to 0
(disabled). -/
def currentTimeout (idx : Nat) (t : Step) : Int :=
  match t.timeout with
  | some x => if x ≥ 0 then x else (if idx = 1 then 120 else 0)
  | none => if idx = 1 then 120 else 0

/-- `t["_done"]=True` followed by `self._emit(idx, …, result, line)`
applied directly to a step record (used by the loops that finalize steps
in place). -/
def markDone (t : Step) (result : String) (ev : Evidence) : Step :=
  { t with
      done := true,
      finalResult := some result,
      finalLine := some ev }

/-- The per-step body of `_check_timeouts` (lines 660-674).  Note the
Python quirk `t0 = t.get("_t0") or now`: a stored `_t0` of exactly 0 is
falsy and is replaced by `now`. -/
def checkTimeoutStep (now : Int) (idx : Nat) (t : Step) : Step × List Emit :=
  if t.done then (t, [])
  else
    let t0 := if t.t0 = 0 then now else t.t0
    let t1 := { t with t0 := t0 }
    let tmo := currentTimeout idx t1
    if tmo ≤ 0 || now - t0 < tmo then (t1, [])
    else
      match t1.rule with
      | .notFind _ =>
        (markDone t1 "PASS" (.timeoutNotSeen tmo),
         [⟨idx, "PASS", some (.timeoutNotSeen tmo)⟩])
      | .action _ =>
        (markDone t1 "FAIL" (.timeoutAction tmo),
         [⟨idx, "FAIL", some (.timeoutAction tmo)⟩])
      | _ =>
        (markDone t1 "FAIL" (.timeoutFail tmo),
         [⟨idx, "FAIL", some (.timeoutFail tmo)⟩])

/-- The loop of `_check_timeouts` over `enumerate(self.tests, 1)`. -/
def checkTimeoutsAux (now : Int) : List Step → Nat → List Step × List Emit
  | [], _ => ([], [])
  | t :: ts, idx =>
    let (t1, em) := checkTimeoutStep now idx t
    let (ts1, ems) := checkTimeoutsAux now ts (idx + 1)
    (t1 :: ts1, em ++ ems)

/-- `_check_timeouts` (lines 660-674): scan every step (not only the
current one) and finalize those whose timeout has expired. -/
def checkTimeouts (now : Int) (s : Session) : Session × List Emit :=
  if !s.running then (s, [])
  else
    let (ts1, ems) := checkTimeoutsAux now s.tests 1
    ({ s with tests := ts1 }, ems)

/-- The per-step body of `_finalize_unfinished` (lines 679-686). -/
def finalizeUnfinishedStep (reason : String) (idx : Nat) (t : Step) :
    Step × List Emit :=
  if t.done then (t, [])
  else
    match t.rule with
    | .notFind _ =>
      (markDone t "PASS" (.finalNotSeen reason),
       [⟨idx, "PASS", some (.finalNotSeen reason)⟩])
    | _ =>
      (markDone t "FAIL" (.finalNeverSeen reason),
       [⟨idx, "FAIL", some (.finalNeverSeen reason)⟩])

/-- The loop of `_finalize_unfinished` over `enumerate(self.tests, 1)`. -/
def finalizeUnfinishedAux (reason : String) : List Step → Nat → List Step × List Emit
  | [], _ => ([], [])
  | t :: ts, idx =>
    let (t1, em) := finalizeUnfinishedStep reason idx t
    let (ts1, ems) := finalizeUnfinishedAux reason ts (idx + 1)
    (t1 :: ts1, em ++ ems)

/-- `_finalize_unfinished` (lines 679-686): resolve every still-pending
step at run termination (`not_find` passes, everything else fails). -/
def finalizeUnfinished (reason : String) (s : Session) : Session × List Emit :=
  let (ts1, ems) := finalizeUnfinishedAux reason s.tests 1
  ({ s with tests := ts1 }, ems)

/-- The `while prog < len(seq)` loop of the `sequence` branch of
`_scan_history_for_step` (lines 554-564): advance the cursor while *any*
history entry matches the current element; return the final cursor and
whether the whole sequence was consumed.  `fuel` is called with
`elems.length`, and each iteration advances `prog` by one. -/
def scanSeqLoop (history : List String) (elems : List SeqElem) :
    Nat → Nat → Nat × Bool
  | 0, prog => (prog, decide (prog ≥ elems.length))
  | f + 1, prog =>
    if prog < elems.length then
      match elems.get? prog with
      | none => (prog, false)
      | some node =>
        let c := normalizeCfg node.toCfg
        if history.any (fun pl => (line_matches pl c).truthy) then
          scanSeqLoop history elems f (prog + 1)
        else (prog, false)
    else (prog, true)

/-- The `last_line` computed by the `sequence` branch when the whole
sequence is satisfied (lines 569-571): the newest history entry matching
the last element, or `""`. -/
def scanSeqLastLine (history : List String) (elems : List SeqElem) : String :=
  match elems.getLast? with
  | none => ""
  | some node =>
    let c := normalizeCfg node.toCfg
    (history.reverse.find? (fun pl => (line_matches pl c).truthy)).getD ""

/-- `_scan_history_for_step` (lines 513-578): try to satisfy step `idx`
from the buffered payload history. -/
def scanHistoryForStep (s : Session) (idx : Nat) : Session × List Emit :=
  if idx < 1 || idx > s.tests.length then (s, [])
  else
    match getStep s.tests idx with
    | none => (s, [])
    | some t =>
      match t.rule with
      | .action _ => (s, [])
      | .find cfg =>
        let c := normalizeCfg cfg
        match s.payloadHistory.find? (fun pl => (line_matches pl c).truthy) with
        | some pl => finalizeStep s idx "PASS" (some (.payload pl))
        | none => (s, [])
      | .notFind cfg =>
        let c := normalizeCfg cfg
        match s.payloadHistory.find? (fun pl => (line_matches pl c).truthy) with
        | some pl => finalizeStep s idx "FAIL" (some (.payload pl))
        | none => (s, [])
      | .sequence elems =>
        if elems.isEmpty then finalizeStep s idx "PASS" (some (.payload ""))
        else
          let (prog, full) := scanSeqLoop s.payloadHistory elems elems.length t.seqIdx
          let s1 := { s with tests := updStep s.tests idx (fun u => { u with seqIdx := prog }) }
          if full then
            finalizeStep s1 idx "PASS" (some (.payload (scanSeqLastLine s.payloadHistory elems)))
          else (s1, [])
      | .unknown => finalizeStep s idx "ERROR" (some .unknownRule)

/-- The loop body of `_run_pending_actions` (lines 754-765): advance the
action pointer over finished steps and execute consecutive pending action
steps; stop at the first pending non-action step.  `fuel` is called with
`tests.length + 1`; each iteration increments the pointer. -/
def runPendingActionsGo (perform : String → Bool × String) :
    Nat → Session → Session × List Emit
  | 0, s => (s, [])
  | f + 1, s =>
    if !s.running || s.actionPtr > s.tests.length then (s, [])
    else
      let i := s.actionPtr
      match getStep s.tests i with
      | none => (s, [])
      | some t =>
        if t.done then runPendingActionsGo perform f { s with actionPtr := i + 1 }
        else
          match t.rule with
          | .action a =>
            let (ok, msg) := perform a
            let (s1, em) := finalizeStep s i (if ok then "PASS" else "FAIL")
              (some (.actionMsg msg))
            let (s2, ems) := runPendingActionsGo perform f { s1 with actionPtr := i + 1 }
            (s2, em ++ ems)
          | _ => (s, [])

/-- `_run_pending_actions` (lines 754-765). -/
def runPendingActions (perform : String → Bool × String) (s : Session) :
    Session × List Emit :=
  runPendingActionsGo perform (s.tests.length + 1) s

/-- The events of the engine loop that touch step state: dispatch of one
received line (`_process_line_dispatch`), a timeout poll
(`_check_timeouts(now)`), an action pass (`_run_pending_actions`), a
history catch-up pass for the current step (main loop lines 298-301), and
final resolution on termination (`_finalize_unfinished`). -/
inductive Event where
  | line (raw : String)
  | tick (now : Int)
  | actions
  | catchup
  | stop (reason : String)
deriving DecidableEq, Repr, Inhabited

/-- One engine event applied to the session state. -/
def stepEvent (perform : String → Bool × String) (s : Session) :
    Event → Session × List Emit
  | .line raw => processLineDispatch perform s raw
  | .tick now => checkTimeouts now s
  | .actions => runPendingActions perform s
  | .catchup =>
    match s.firstUnfinished with
    | some cur => scanHistoryForStep s cur
    | none => (s, [])
  | .stop reason => finalizeUnfinished reason s

/-- Run a list of engine events, accumulating observer notifications. -/
def runEvents (perform : String → Bool × String) (s : Session) :
    List Event → Session × List Emit
  | [] => (s, [])
  | e :: es =>
    let (s1, ems) := stepEvent perform s e
    let (s2, rest) := runEvents perform s1 es
    (s2, ems ++ rest)

/-- A step as configured in the rule file: its rule body and optional
`timeout` field. -/
structure StepSpec where
  rule : Rule
  timeout : Option Int := none
deriving DecidableEq, Repr, Inhabited

/-- The per-run initialization performed by `SessionManager.start`
(lines 221-237): every step gets `_done=False`, `_seq_idx=0`, `_t0=now`,
a zero match counter; `_action_ptr=1`; the payload history deque is empty
(nothing in the source ever appends to `self._payload_history`). -/
def initSession (specs : List StepSpec) (now : Int) : Session :=
  { tests := specs.map (fun p =>
      { rule := p.rule, timeout := p.timeout, done := false, seqIdx := 0,
        t0 := now, finalResult := none, finalLine := none }),
    counts := specs.map (fun _ => 0),
    payloadHistory := [],
    actionPtr := 1,
    running := true }

/-- An Action Executor oracle that fails every action (used in concrete
scenarios that contain no action steps). -/
def performNone : String → Bool × String := fun _ => (false, "")

/-- Number of observer notifications for step index `i` in an emit list. -/
def emitsFor (ems : List Emit) (i : Nat) : Nat :=
  ems.countP (fun e => e.idx == i)

/-- Whether step `i` is finalized in session `s` (out-of-range indices
count as finalized: they can never be notified). -/
def stepDoneAt (s : Session) (i : Nat) : Bool :=
  match getStep s.tests i with
  | some t => t.done
  | none => true

/-- Character condition for the amended idempotence claim: no ASCII
uppercase letter and no `>` anywhere in the string. -/
def NoUpperNoGt (s : String) : Prop :=
  ∀ c ∈ s.data, isUpperAZ c = false ∧ c ≠ '>'

/-- No two adjacent whitespace characters (the structural invariant
established by the whitespace-collapsing stage of the sanitizer). -/
def NoAdjWS (l : List Char) : Prop :=
  l.Chain' (fun a b => isPySpace a = false ∨ isPySpace b = false)

/-! ### Helper lemmas: 1-based step access -/

theorem get?_set_self_of_lt {α : Type _} (l : List α) (n : Nat) (a : α)
    (h : n < l.length) : (l.set n a).get? n = some a := by
  induction l generalizing n with
  | nil => simp at h
  | cons b bs ih =>
    cases n with
    | zero => rfl
    | succ m =>
      simp only [List.set, List.get?]
      exact ih m (by simpa using h)

theorem get?_set_ne {α : Type _} (l : List α) (n m : Nat) (a : α)
    (h : n ≠ m) : (l.set n a).get? m = l.get? m := by
  induction l generalizing n m with
  | nil => rfl
  | cons b bs ih =>
    cases n with
    | zero =>
      cases m with
      | zero => exact absurd rfl h
      | succ k => rfl
    | succ n1 =>
      cases m with
      | zero => rfl
      | succ k =>
        simp only [List.set, List.get?]
        exact ih n1 k (fun hh => h (by rw [hh]))

theorem get?_some_lt {α : Type _} {l : List α} {n : Nat} {a : α}
    (h : l.get? n = some a) : n < l.length := by
  induction l generalizing n with
  | nil => simp at h
  | cons b bs ih =>
    cases n with
    | zero => simp
    | succ m =>
      simp only [List.get?] at h
      simpa using ih h

theorem getStep_bounds {ss : List Step} {i : Nat} {t : Step}
    (h : getStep ss i = some t) : 1 ≤ i ∧ i ≤ ss.length := by
  unfold getStep at h
  by_cases hi : i = 0
  · rw [if_pos hi] at h; exact absurd h (by simp)
  · rw [if_neg hi] at h
    have := get?_some_lt h
    omega

theorem length_updStep (ss : List Step) (i : Nat) (f : Step → Step) :
    (updStep ss i f).length = ss.length := by
  unfold updStep
  cases h : getStep ss i with
  | none => rfl
  | some t => simp [List.length_set]

theorem getStep_updStep_self (ss : List Step) (i : Nat) (f : Step → Step) :
    getStep (updStep ss i f) i = (getStep ss i).map f := by
  unfold updStep
  cases h : getStep ss i with
  | none => simp [h]
  | some t =>
    have hb := getStep_bounds h
    have hi : i ≠ 0 := by omega
    simp only [h]
    unfold getStep at h ⊢
    rw [if_neg hi] at h ⊢
    rw [get?_set_self_of_lt _ _ _ (get?_some_lt h)]
    simp

theorem getStep_updStep_ne (ss : List Step) (i j : Nat) (f : Step → Step)
    (h : j ≠ i) : getStep (updStep ss i f) j = getStep ss j := by
  unfold updStep
  cases hg : getStep ss i with
  | none => rfl
  | some t =>
    have hb := getStep_bounds hg
    unfold getStep
    by_cases hj : j = 0
    · simp [hj]
    · rw [if_neg hj, if_neg hj, get?_set_ne]
      omega

theorem firstUnfinishedAux_spec :
    ∀ (ts : List Step) (base i : Nat), firstUnfinishedAux ts base = some i →
      base ≤ i ∧ ∃ t, ts.get? (i - base) = some t ∧ t.done = false := by
  intro ts
  induction ts with
  | nil => intro base i h; simp [firstUnfinishedAux] at h
  | cons t ts ih =>
    intro base i h
    unfold firstUnfinishedAux at h
    by_cases hd : t.done
    · rw [if_pos hd] at h
      obtain ⟨hle, u, hu, hdu⟩ := ih (base + 1) i h
      refine ⟨by omega, u, ?_, hdu⟩
      have : i - base = (i - (base + 1)) + 1 := by omega
      rw [this]
      simpa using hu
    · rw [if_neg hd] at h
      obtain rfl : base = i := by simpa using h
      exact ⟨le_refl _, t, by simp, by simpa using hd⟩

theorem firstUnfinished_not_done {s : Session} {i : Nat}
    (h : s.firstUnfinished = some i) :
    ∃ t, getStep s.tests i = some t ∧ t.done = false := by
  obtain ⟨hle, t, ht, hd⟩ := firstUnfinishedAux_spec s.tests 1 i h
  exact ⟨t, by unfold getStep; rw [if_neg (by omega)]; exact ht, hd⟩

theorem firstUnfinished_ne_done {s : Session} {i j : Nat} {t : Step}
    (hf : s.firstUnfinished = some j)
    (ht : getStep s.tests i = some t) (hd : t.done = true) : j ≠ i := by
  intro h
  subst h
  obtain ⟨u, hu, hdu⟩ := firstUnfinished_not_done hf
  rw [ht] at hu
  cases hu
  rw [hd] at hdu
  exact Bool.noConfusion hdu

theorem finalizeStep_tests (s : Session) (idx : Nat) (r : String)
    (ev : Option Evidence) :
    (finalizeStep s idx r ev).1.tests =
      updStep s.tests idx (fun t =>
        { t with done := true, finalResult := some r, finalLine := ev }) := rfl

theorem finalizeStep_emits (s : Session) (idx : Nat) (r : String)
    (ev : Option Evidence) :
    (finalizeStep s idx r ev).2 = [⟨idx, r, ev⟩] := rfl

theorem set_get?_self {α : Type _} (l : List α) (n : Nat) (a : α)
    (h : l.get? n = some a) : l.set n a = l := by
  induction l generalizing n with
  | nil => rfl
  | cons b bs ih =>
    cases n with
    | zero => simp only [List.get?] at h; cases h; rfl
    | succ m =>
      simp only [List.get?] at h
      simp [List.set, ih m h]

theorem updStep_id (ss : List Step) (i : Nat) : updStep ss i (fun t => t) = ss := by
  unfold updStep
  cases h : getStep ss i with
  | none => rfl
  | some t =>
    have hb := getStep_bounds h
    unfold getStep at h
    rw [if_neg (by omega)] at h
    exact set_get?_self _ _ _ h

theorem emitsFor_nil (i : Nat) : emitsFor [] i = 0 := rfl

theorem emitsFor_single (e : Emit) (i : Nat) :
    emitsFor [e] i = if e.idx = i then 1 else 0 := by
  simp [emitsFor, List.countP_cons]

theorem emitsFor_append (l1 l2 : List Emit) (i : Nat) :
    emitsFor (l1 ++ l2) i = emitsFor l1 i + emitsFor l2 i := by
  simp [emitsFor, List.countP_append]

theorem updStep_updStep (ss : List Step) (i : Nat) (f g : Step → Step) :
    updStep (updStep ss i f) i g = updStep ss i (fun t => g (f t)) := by
  unfold updStep
  cases h : getStep ss i with
  | none => simp [h]
  | some t =>
    have hb := getStep_bounds h
    have hi : i ≠ 0 := by omega
    have h' : getStep (ss.set (i - 1) (f t)) i = some (f t) := by
      unfold getStep
      rw [if_neg hi]
      unfold getStep at h
      rw [if_neg hi] at h
      exact get?_set_self_of_lt _ _ _ (get?_some_lt h)
    simp only [h, h']
    rw [List.set_set]

theorem finalizeStep_fields (s : Session) (idx : Nat) (r : String)
    (ev : Option Evidence) :
    (finalizeStep s idx r ev).1.payloadHistory = s.payloadHistory
    ∧ (finalizeStep s idx r ev).1.actionPtr = s.actionPtr
    ∧ (finalizeStep s idx r ev).1.running = s.running
    ∧ (finalizeStep s idx r ev).1.counts = s.counts := ⟨rfl, rfl, rfl, rfl⟩

theorem finalize_shape (s : Session) (idx : Nat) (r : String)
    (ev : Option Evidence) (t : Step) (hg : getStep s.tests idx = some t) :
    (∃ f, (finalizeStep s idx r ev).1.tests = updStep s.tests idx f)
    ∧ ((finalizeStep s idx r ev).2 = []
       ∨ ∃ e : Emit, (finalizeStep s idx r ev).2 = [e] ∧ e.idx = idx
          ∧ (getStep (finalizeStep s idx r ev).1.tests idx).map Step.done = some true) := by
  refine ⟨⟨_, rfl⟩, Or.inr ⟨_, rfl, rfl, ?_⟩⟩
  rw [finalizeStep_tests, getStep_updStep_self, hg]
  rfl

theorem processLineSequential_spec (perform : String → Bool × String)
    (s : Session) (payload : String) :
    ((processLineSequential perform s payload).1.payloadHistory = s.payloadHistory
      ∧ (processLineSequential perform s payload).1.actionPtr = s.actionPtr
      ∧ (processLineSequential perform s payload).1.running = s.running)
    ∧ (match s.firstUnfinished with
       | none => (processLineSequential perform s payload).1.tests = s.tests
           ∧ (processLineSequential perform s payload).2 = []
       | some idx =>
         (∃ f, (processLineSequential perform s payload).1.tests = updStep s.tests idx f)
         ∧ ((processLineSequential perform s payload).2 = []
            ∨ ∃ e : Emit, (processLineSequential perform s payload).2 = [e] ∧ e.idx = idx
               ∧ (getStep (processLineSequential perform s payload).1.tests idx).map Step.done = some true)) := by
  unfold processLineSequential
  cases hfu : s.firstUnfinished with
  | none => simp
  | some idx =>
    simp only
    cases hg : getStep s.tests idx with
    | none =>
      refine ⟨⟨rfl, rfl, rfl⟩, ⟨fun t => t, (updStep_id s.tests idx).symm⟩, Or.inl rfl⟩
    | some t =>
      cases hr : t.rule with
      | action a =>
        simp only [hr]
        exact ⟨(finalizeStep_fields s idx _ _).1.symm ▸ ⟨rfl, rfl, rfl⟩,
               finalize_shape s idx _ _ t hg⟩
      | find cfg =>
        simp only [hr]
        by_cases hhit : (tryFind s.counts idx cfg payload).1 = true
        · rw [if_pos hhit]
          exact ⟨⟨rfl, rfl, rfl⟩, finalize_shape _ idx _ _ t hg⟩
        · rw [if_neg hhit]
          exact ⟨⟨rfl, rfl, rfl⟩, ⟨fun t => t, (updStep_id s.tests idx).symm⟩, Or.inl rfl⟩
      | notFind cfg =>
        simp only [hr]
        by_cases hm : (line_matches payload (normalizeCfg cfg)).truthy = true
        · rw [if_pos hm]
          exact ⟨⟨rfl, rfl, rfl⟩, finalize_shape s idx _ _ t hg⟩
        · rw [if_neg hm]
          exact ⟨⟨rfl, rfl, rfl⟩, ⟨fun t => t, (updStep_id s.tests idx).symm⟩, Or.inl rfl⟩
      | sequence elems =>
        simp only [hr]
        by_cases hd : (trySequence t elems payload).1 = true
        · rw [if_pos hd]
          have hg1 : getStep (updStep s.tests idx (fun _ => (trySequence t elems payload).2)) idx
              = some (trySequence t elems payload).2 := by
            rw [getStep_updStep_self, hg]; rfl
          obtain ⟨⟨f, hf⟩, hemits⟩ := finalize_shape
            { s with tests := updStep s.tests idx (fun _ => (trySequence t elems payload).2) }
            idx "PASS" (some (.payload payload)) _ hg1
          refine ⟨⟨rfl, rfl, rfl⟩,
            ⟨fun u => f ((fun _ => (trySequence t elems payload).2) u), ?_⟩, ?_⟩
          · rw [hf, updStep_updStep]
          · exact hemits
        · rw [if_neg hd]
          exact ⟨⟨rfl, rfl, rfl⟩, ⟨_, rfl⟩, Or.inl rfl⟩
      | unknown =>
        simp only [hr]
        exact ⟨⟨rfl, rfl, rfl⟩, finalize_shape s idx _ _ t hg⟩

theorem scanHistoryForStep_spec (s : Session) (idx : Nat) :
    ((scanHistoryForStep s idx).1.payloadHistory = s.payloadHistory
      ∧ (scanHistoryForStep s idx).1.actionPtr = s.actionPtr
      ∧ (scanHistoryForStep s idx).1.running = s.running
      ∧ (scanHistoryForStep s idx).1.counts = s.counts)
    ∧ (∃ f, (scanHistoryForStep s idx).1.tests = updStep s.tests idx f)
    ∧ ((scanHistoryForStep s idx).2 = []
       ∨ ∃ e : Emit, (scanHistoryForStep s idx).2 = [e] ∧ e.idx = idx
          ∧ (getStep (scanHistoryForStep s idx).1.tests idx).map Step.done = some true) := by
  unfold scanHistoryForStep
  split
  · refine ⟨⟨?_, ?_, ?_, ?_⟩, ⟨fun t => t, ?_⟩, Or.inl ?_⟩ <;> simp [updStep_id]
  · cases hg : getStep s.tests idx with
    | none =>
      refine ⟨⟨?_, ?_, ?_, ?_⟩, ⟨fun t => t, ?_⟩, Or.inl ?_⟩ <;> simp [updStep_id]
    | some t =>
      cases hr : t.rule with
      | action a =>
        try simp only [hr]
        refine ⟨⟨?_, ?_, ?_, ?_⟩, ⟨fun t => t, ?_⟩, Or.inl ?_⟩ <;> simp [updStep_id]
      | find cfg =>
        try simp only [hr]
        cases hfind : s.payloadHistory.find? (fun pl => (line_matches pl (normalizeCfg cfg)).truthy) with
        | none =>
          try simp only [hfind]
          refine ⟨⟨?_, ?_, ?_, ?_⟩, ⟨fun t => t, ?_⟩, Or.inl ?_⟩ <;> simp [updStep_id]
        | some pl =>
          try simp only [hfind]
          obtain ⟨hshape1, hshape2⟩ := finalize_shape s idx "PASS" (some (.payload pl)) t hg
          exact ⟨⟨rfl, rfl, rfl, rfl⟩, hshape1, hshape2⟩
      | notFind cfg =>
        try simp only [hr]
        cases hfind : s.payloadHistory.find? (fun pl => (line_matches pl (normalizeCfg cfg)).truthy) with
        | none =>
          try simp only [hfind]
          refine ⟨⟨?_, ?_, ?_, ?_⟩, ⟨fun t => t, ?_⟩, Or.inl ?_⟩ <;> simp [updStep_id]
        | some pl =>
          try simp only [hfind]
          obtain ⟨hshape1, hshape2⟩ := finalize_shape s idx "FAIL" (some (.payload pl)) t hg
          exact ⟨⟨rfl, rfl, rfl, rfl⟩, hshape1, hshape2⟩
      | sequence elems =>
        try simp only [hr]
        by_cases he : elems.isEmpty = true
        · rw [if_pos he]
          obtain ⟨hshape1, hshape2⟩ := finalize_shape s idx "PASS" (some (.payload "")) t hg
          exact ⟨⟨rfl, rfl, rfl, rfl⟩, hshape1, hshape2⟩
        · rw [if_neg he]
          rcases hsl : scanSeqLoop s.payloadHistory elems elems.length t.seqIdx with ⟨prog, full⟩
          simp only [hsl]
          cases full with
          | false =>
            rw [if_neg (fun h => Bool.noConfusion h)]
            exact ⟨⟨rfl, rfl, rfl, rfl⟩, ⟨_, rfl⟩, Or.inl rfl⟩
          | true =>
            rw [if_pos rfl]
            have hg1 : getStep (updStep s.tests idx (fun u => { u with seqIdx := prog })) idx
                = some { t with seqIdx := prog } := by
              rw [getStep_updStep_self, hg]; rfl
            obtain ⟨⟨f, hf⟩, hemits⟩ := finalize_shape
              { s with tests := updStep s.tests idx (fun u => { u with seqIdx := prog }) }
              idx "PASS" (some (.payload (scanSeqLastLine s.payloadHistory elems))) _ hg1
            refine ⟨⟨rfl, rfl, rfl, rfl⟩,
              ⟨fun u => f { u with seqIdx := prog }, ?_⟩, ?_⟩
            · rw [hf, updStep_updStep]
            · exact hemits
      | unknown =>
        try simp only [hr]
        obtain ⟨hshape1, hshape2⟩ := finalize_shape s idx "ERROR" (some .unknownRule) t hg
        exact ⟨⟨rfl, rfl, rfl, rfl⟩, hshape1, hshape2⟩

theorem checkTimeoutStep_done (now : Int) (idx : Nat) (t : Step)
    (hd : t.done = true) : checkTimeoutStep now idx t = (t, []) := by
  unfold checkTimeoutStep
  rw [if_pos hd]

theorem checkTimeoutStep_shape (now : Int) (idx : Nat) (t : Step) :
    (checkTimeoutStep now idx t).2 = []
    ∨ ∃ e : Emit, (checkTimeoutStep now idx t).2 = [e] ∧ e.idx = idx
        ∧ t.done = false ∧ (checkTimeoutStep now idx t).1.done = true := by
  unfold checkTimeoutStep
  by_cases hd : t.done = true
  · rw [if_pos hd]
    exact Or.inl rfl
  · rw [if_neg hd]
    have hd' : t.done = false := by
      cases h : t.done
      · rfl
      · exact absurd h hd
    dsimp only
    split
    all_goals
      split
      · exact Or.inl rfl
      · split <;> exact Or.inr ⟨_, rfl, rfl, hd', rfl⟩

theorem checkTimeoutsAux_cons (now : Int) (t : Step) (ts : List Step) (base : Nat) :
    checkTimeoutsAux now (t :: ts) base =
      ((checkTimeoutStep now base t).1 :: (checkTimeoutsAux now ts (base + 1)).1,
       (checkTimeoutStep now base t).2 ++ (checkTimeoutsAux now ts (base + 1)).2) := rfl

theorem checkTimeoutsAux_spec (now : Int) :
    ∀ (ts : List Step) (base : Nat),
      ((checkTimeoutsAux now ts base).1.length = ts.length)
      ∧ (∀ k t, ts.get? k = some t → t.done = true →
           (checkTimeoutsAux now ts base).1.get? k = some t)
      ∧ (∀ i, emitsFor (checkTimeoutsAux now ts base).2 i ≤ 1)
      ∧ (∀ i, 1 ≤ emitsFor (checkTimeoutsAux now ts base).2 i →
           base ≤ i ∧ i < base + ts.length
           ∧ (∃ t0, ts.get? (i - base) = some t0 ∧ t0.done = false)
           ∧ ∃ u, (checkTimeoutsAux now ts base).1.get? (i - base) = some u
              ∧ u.done = true) := by
  intro ts
  induction ts with
  | nil =>
    intro base
    refine ⟨rfl, ?_, ?_, ?_⟩
    · intro k t hk; simp at hk
    · intro i; simp [checkTimeoutsAux, emitsFor]
    · intro i hi; simp [checkTimeoutsAux, emitsFor] at hi
  | cons t ts ih =>
    intro base
    obtain ⟨ihlen, ihdone, ihle, ihpos⟩ := ih (base + 1)
    have hshape := checkTimeoutStep_shape now base t
    rw [checkTimeoutsAux_cons]
    refine ⟨?_, ?_, ?_, ?_⟩
    · simpa using ihlen
    · intro k u hk hdu
      cases k with
      | zero =>
        simp only [List.get?] at hk ⊢
        cases hk
        rw [checkTimeoutStep_done now base _ hdu]
      | succ m =>
        simp only [List.get?] at hk ⊢
        exact ihdone m u hk hdu
    · intro i
      simp only
      rw [emitsFor_append]
      rcases hshape with hnil | ⟨e, hem, hei, hdf, hd1⟩
      · rw [hnil, emitsFor_nil]
        simpa using ihle i
      · rw [hem, emitsFor_single]
        by_cases hi : e.idx = i
        · rw [if_pos hi]
          have hems0 : emitsFor (checkTimeoutsAux now ts (base + 1)).2 i = 0 := by
            by_contra hne
            have h1 : 1 ≤ emitsFor (checkTimeoutsAux now ts (base + 1)).2 i :=
              Nat.one_le_iff_ne_zero.mpr hne
            have hb := (ihpos i h1).1
            omega
          omega
        · rw [if_neg hi]
          simpa using ihle i
    · intro i hi
      simp only at hi ⊢
      rw [emitsFor_append] at hi
      rcases hshape with hnil | ⟨e, hem, hei, hdf, hd1⟩
      · rw [hnil, emitsFor_nil] at hi
        simp only [Nat.zero_add] at hi
        obtain ⟨hb, hlt, ⟨t0, ht0, hdt0⟩, u, hu, hdu⟩ := ihpos i hi
        have heq : i - base = (i - (base + 1)) + 1 := by omega
        refine ⟨by omega, by simp; omega, ⟨t0, ?_, hdt0⟩, u, ?_, hdu⟩
        · rw [heq]; simpa using ht0
        · rw [heq]; simpa using hu
      · by_cases hie : e.idx = i
        · have hib : i = base := by omega
          refine ⟨by omega, by simp; omega, ⟨t, ?_, hdf⟩, (checkTimeoutStep now base t).1, ?_, hd1⟩
          · rw [hib, Nat.sub_self]; rfl
          · rw [hib, Nat.sub_self]; rfl
        · rw [hem, emitsFor_single, if_neg hie] at hi
          simp only [Nat.zero_add] at hi
          obtain ⟨hb, hlt, ⟨t0, ht0, hdt0⟩, u, hu, hdu⟩ := ihpos i hi
          have heq : i - base = (i - (base + 1)) + 1 := by omega
          refine ⟨by omega, by simp; omega, ⟨t0, ?_, hdt0⟩, u, ?_, hdu⟩
          · rw [heq]; simpa using ht0
          · rw [heq]; simpa using hu

theorem finalizeUnfinishedStep_done (reason : String) (idx : Nat) (t : Step)
    (hd : t.done = true) : finalizeUnfinishedStep reason idx t = (t, []) := by
  unfold finalizeUnfinishedStep
  rw [if_pos hd]

theorem finalizeUnfinishedStep_shape (reason : String) (idx : Nat) (t : Step) :
    (finalizeUnfinishedStep reason idx t).2 = []
    ∨ ∃ e : Emit, (finalizeUnfinishedStep reason idx t).2 = [e] ∧ e.idx = idx
        ∧ t.done = false ∧ (finalizeUnfinishedStep reason idx t).1.done = true := by
  unfold finalizeUnfinishedStep
  by_cases hd : t.done = true
  · rw [if_pos hd]
    exact Or.inl rfl
  · rw [if_neg hd]
    have hd' : t.done = false := by
      cases h : t.done
      · rfl
      · exact absurd h hd
    split <;> exact Or.inr ⟨_, rfl, rfl, hd', rfl⟩

theorem finalizeUnfinishedAux_cons (reason : String) (t : Step) (ts : List Step)
    (base : Nat) :
    finalizeUnfinishedAux reason (t :: ts) base =
      ((finalizeUnfinishedStep reason base t).1 :: (finalizeUnfinishedAux reason ts (base + 1)).1,
       (finalizeUnfinishedStep reason base t).2 ++ (finalizeUnfinishedAux reason ts (base + 1)).2) := rfl

theorem finalizeUnfinishedAux_spec (reason : String) :
    ∀ (ts : List Step) (base : Nat),
      ((finalizeUnfinishedAux reason ts base).1.length = ts.length)
      ∧ (∀ k t, ts.get? k = some t → t.done = true →
           (finalizeUnfinishedAux reason ts base).1.get? k = some t)
      ∧ (∀ i, emitsFor (finalizeUnfinishedAux reason ts base).2 i ≤ 1)
      ∧ (∀ i, 1 ≤ emitsFor (finalizeUnfinishedAux reason ts base).2 i →
           base ≤ i ∧ i < base + ts.length
           ∧ (∃ t0, ts.get? (i - base) = some t0 ∧ t0.done = false)
           ∧ ∃ u, (finalizeUnfinishedAux reason ts base).1.get? (i - base) = some u
              ∧ u.done = true) := by
  intro ts
  induction ts with
  | nil =>
    intro base
    refine ⟨rfl, ?_, ?_, ?_⟩
    · intro k t hk; simp at hk
    · intro i; simp [finalizeUnfinishedAux, emitsFor]
    · intro i hi; simp [finalizeUnfinishedAux, emitsFor] at hi
  | cons t ts ih =>
    intro base
    obtain ⟨ihlen, ihdone, ihle, ihpos⟩ := ih (base + 1)
    have hshape := finalizeUnfinishedStep_shape reason base t
    rw [finalizeUnfinishedAux_cons]
    refine ⟨?_, ?_, ?_, ?_⟩
    · simpa using ihlen
    · intro k u hk hdu
      cases k with
      | zero =>
        simp only [List.get?] at hk ⊢
        cases hk
        rw [finalizeUnfinishedStep_done reason base _ hdu]
      | succ m =>
        simp only [List.get?] at hk ⊢
        exact ihdone m u hk hdu
    · intro i
      simp only
      rw [emitsFor_append]
      rcases hshape with hnil | ⟨e, hem, hei, hdf, hd1⟩
      · rw [hnil, emitsFor_nil]
        simpa using ihle i
      · rw [hem, emitsFor_single]
        by_cases hi : e.idx = i
        · rw [if_pos hi]
          have hems0 : emitsFor (finalizeUnfinishedAux reason ts (base + 1)).2 i = 0 := by
            by_contra hne
            have h1 : 1 ≤ emitsFor (finalizeUnfinishedAux reason ts (base + 1)).2 i :=
              Nat.one_le_iff_ne_zero.mpr hne
            have hb := (ihpos i h1).1
            omega
          omega
        · rw [if_neg hi]
          simpa using ihle i
    · intro i hi
      simp only at hi ⊢
      rw [emitsFor_append] at hi
      rcases hshape with hnil | ⟨e, hem, hei, hdf, hd1⟩
      · rw [hnil, emitsFor_nil] at hi
        simp only [Nat.zero_add] at hi
        obtain ⟨hb, hlt, ⟨t0, ht0, hdt0⟩, u, hu, hdu⟩ := ihpos i hi
        have heq : i - base = (i - (base + 1)) + 1 := by omega
        refine ⟨by omega, by simp; omega, ⟨t0, ?_, hdt0⟩, u, ?_, hdu⟩
        · rw [heq]; simpa using ht0
        · rw [heq]; simpa using hu
      · by_cases hie : e.idx = i
        · have hib : i = base := by omega
          refine ⟨by omega, by simp; omega, ⟨t, ?_, hdf⟩, (finalizeUnfinishedStep reason base t).1, ?_, hd1⟩
          · rw [hib, Nat.sub_self]; rfl
          · rw [hib, Nat.sub_self]; rfl
        · rw [hem, emitsFor_single, if_neg hie] at hi
          simp only [Nat.zero_add] at hi
          obtain ⟨hb, hlt, ⟨t0, ht0, hdt0⟩, u, hu, hdu⟩ := ihpos i hi
          have heq : i - base = (i - (base + 1)) + 1 := by omega
          refine ⟨by omega, by simp; omega, ⟨t0, ?_, hdt0⟩, u, ?_, hdu⟩
          · rw [heq]; simpa using ht0
          · rw [heq]; simpa using hu

theorem runPendingActionsGo_spec (perform : String → Bool × String) :
    ∀ (fuel : Nat) (s : Session),
      ((runPendingActionsGo perform fuel s).1.payloadHistory = s.payloadHistory
        ∧ (runPendingActionsGo perform fuel s).1.running = s.running
        ∧ (runPendingActionsGo perform fuel s).1.counts = s.counts)
      ∧ ((runPendingActionsGo perform fuel s).1.tests.length = s.tests.length)
      ∧ (∀ i t, getStep s.tests i = some t → t.done = true →
           getStep (runPendingActionsGo perform fuel s).1.tests i = some t)
      ∧ (∀ i, emitsFor (runPendingActionsGo perform fuel s).2 i ≤ 1)
      ∧ (∀ i, 1 ≤ emitsFor (runPendingActionsGo perform fuel s).2 i →
           (∃ t, getStep s.tests i = some t ∧ t.done = false)
           ∧ (∃ u, getStep (runPendingActionsGo perform fuel s).1.tests i = some u
               ∧ u.done = true)) := by
  intro fuel
  induction fuel with
  | zero =>
    intro s
    refine ⟨⟨rfl, rfl, rfl⟩, rfl, ?_, ?_, ?_⟩
    · intro i t h _; exact h
    · intro i; simp [runPendingActionsGo, emitsFor]
    · intro i hi; simp [runPendingActionsGo, emitsFor] at hi
  | succ f ih =>
    intro s
    unfold runPendingActionsGo
    by_cases hguard : (!s.running || decide (s.actionPtr > s.tests.length)) = true
    · rw [if_pos hguard]
      refine ⟨⟨rfl, rfl, rfl⟩, rfl, ?_, ?_, ?_⟩
      · intro i t h _; exact h
      · intro i; simp [emitsFor]
      · intro i hi; simp [emitsFor] at hi
    · rw [if_neg hguard]
      dsimp only
      cases hg : getStep s.tests s.actionPtr with
      | none =>
        simp only [hg]
        refine ⟨⟨by trivial, by trivial, by trivial⟩, by trivial, ?_, ?_, ?_⟩
        · intro i t h _; exact h
        · intro i; simp [emitsFor]
        · intro i hi; simp [emitsFor] at hi
      | some t =>
        simp only [hg]
        by_cases hd : t.done = true
        · rw [if_pos hd]
          exact ih { s with actionPtr := s.actionPtr + 1 }
        · rw [if_neg hd]
          cases hr : t.rule with
          | action a =>
            simp only [hr]
            rcases hperf : perform a with ⟨ok, msg⟩
            simp only [hperf]
            set F := finalizeStep s s.actionPtr (if ok = true then "PASS" else "FAIL")
              (some (.actionMsg msg)) with hF
            set s2 := ({
              tests := F.1.tests,
              counts := F.1.counts,
              payloadHistory := F.1.payloadHistory,
              actionPtr := s.actionPtr + 1,
              running := F.1.running } : Session) with hs2
            obtain ⟨⟨ihph, ihrun, ihcnt⟩, ihlen, ihdone, ihle, ihpos⟩ := ih s2
            have hs2tests : s2.tests = F.1.tests := by rw [hs2]
            have hFtests : F.1.tests = updStep s.tests s.actionPtr
                (fun u => { u with done := true, finalResult := some (if ok = true then "PASS" else "FAIL"), finalLine := some (Evidence.actionMsg msg) }) := by
              rw [hF, finalizeStep_tests]
            have hg1 : getStep F.1.tests s.actionPtr = some { t with done := true, finalResult := some (if ok = true then "PASS" else "FAIL"), finalLine := some (Evidence.actionMsg msg) } := by
              rw [hFtests, getStep_updStep_self, hg]
              rfl
            have hFem : F.2 = [⟨s.actionPtr, if ok = true then "PASS" else "FAIL",
                some (Evidence.actionMsg msg)⟩] := by
              rw [hF, finalizeStep_emits]
            refine ⟨⟨?_, ?_, ?_⟩, ?_, ?_, ?_, ?_⟩
            · rw [ihph, hs2]
              rfl
            · rw [ihrun, hs2]
              rfl
            · rw [ihcnt, hs2]
              rfl
            · rw [ihlen, hs2tests, hFtests, length_updStep]
            · intro i u hu hdu
              have hne : i ≠ s.actionPtr := by
                intro hE
                rw [hE, hg] at hu
                cases hu
                rw [hdu] at hd
                exact hd rfl
              refine ihdone i u ?_ hdu
              rw [hs2tests, hFtests, getStep_updStep_ne _ _ _ _ hne]
              exact hu
            · intro i
              rw [emitsFor_append, hFem, emitsFor_single]
              by_cases hie : s.actionPtr = i
              · rw [if_pos hie]
                have hrest : emitsFor (runPendingActionsGo perform f s2).2 i = 0 := by
                  by_contra hne
                  have h1 := Nat.one_le_iff_ne_zero.mpr hne
                  obtain ⟨⟨v, hv, hdv⟩, _⟩ := ihpos i h1
                  rw [hs2tests, ← hie, hg1] at hv
                  cases hv
                  simp at hdv
                rw [hrest]
              · rw [if_neg hie]
                simpa using ihle i
            · intro i hi
              rw [emitsFor_append, hFem, emitsFor_single] at hi
              by_cases hie : s.actionPtr = i
              · refine ⟨⟨t, by rw [← hie]; exact hg, by simpa using hd⟩, ?_⟩
                have hafter := ihdone i _ (by rw [hs2tests, ← hie]; exact hg1) rfl
                exact ⟨_, hafter, rfl⟩
              · rw [if_neg hie] at hi
                simp only [Nat.zero_add] at hi
                obtain ⟨⟨v, hv, hdv⟩, hafter⟩ := ihpos i hi
                refine ⟨⟨v, ?_, hdv⟩, hafter⟩
                rw [hs2tests, hFtests, getStep_updStep_ne _ _ _ _
                  (fun hE => hie hE.symm)] at hv
                exact hv
          | find cfg =>
            simp only [hr]
            refine ⟨⟨by trivial, by trivial, by trivial⟩, by trivial, ?_, ?_, ?_⟩
            · intro i u h _; exact h
            · intro i; simp [emitsFor]
            · intro i hi; simp [emitsFor] at hi
          | notFind cfg =>
            simp only [hr]
            refine ⟨⟨by trivial, by trivial, by trivial⟩, by trivial, ?_, ?_, ?_⟩
            · intro i u h _; exact h
            · intro i; simp [emitsFor]
            · intro i hi; simp [emitsFor] at hi
          | sequence elems =>
            simp only [hr]
            refine ⟨⟨by trivial, by trivial, by trivial⟩, by trivial, ?_, ?_, ?_⟩
            · intro i u h _; exact h
            · intro i; simp [emitsFor]
            · intro i hi; simp [emitsFor] at hi
          | unknown =>
            simp only [hr]
            refine ⟨⟨by trivial, by trivial, by trivial⟩, by trivial, ?_, ?_, ?_⟩
            · intro i u h _; exact h
            · intro i; simp [emitsFor]
            · intro i hi; simp [emitsFor] at hi

theorem getStep_eq_get? {ss : List Step} {i : Nat} (hi : i ≠ 0) :
    getStep ss i = ss.get? (i - 1) := by
  unfold getStep
  rw [if_neg hi]

theorem stepDoneAt_of_some_done {s : Session} {i : Nat} {u : Step}
    (h : getStep s.tests i = some u) (hd : u.done = true) :
    stepDoneAt s i = true := by
  unfold stepDoneAt
  rw [h]
  exact hd

/-- Properties shared by every result that touches only step `idx`, where
`idx` points at a not-yet-done step, and notifies at most once for `idx`
with the step finalized. -/
theorem shape_spec (s : Session) (r : Session × List Emit) (idx : Nat) (t0 : Step)
    (hg0 : getStep s.tests idx = some t0) (hd0 : t0.done = false)
    (hts : ∃ f, r.1.tests = updStep s.tests idx f)
    (hem : r.2 = [] ∨ ∃ e : Emit, r.2 = [e] ∧ e.idx = idx
       ∧ (getStep r.1.tests idx).map Step.done = some true) :
    (r.1.tests.length = s.tests.length)
    ∧ (∀ i t, getStep s.tests i = some t → t.done = true →
        getStep r.1.tests i = some t ∧ emitsFor r.2 i = 0)
    ∧ (∀ i, emitsFor r.2 i ≤ 1)
    ∧ (∀ i, 1 ≤ emitsFor r.2 i → stepDoneAt r.1 i = true)
    ∧ (∀ i, 1 ≤ emitsFor r.2 i →
        ∃ u, getStep s.tests i = some u ∧ u.done = false) := by
  obtain ⟨f, hf⟩ := hts
  refine ⟨by rw [hf, length_updStep], ?_, ?_, ?_, ?_⟩
  · intro i t hi hd
    have hne : i ≠ idx := by
      intro hE
      rw [hE, hg0] at hi
      cases hi
      rw [hd0] at hd
      exact Bool.noConfusion hd
    constructor
    · rw [hf, getStep_updStep_ne _ _ _ _ hne]
      exact hi
    · rcases hem with hnil | ⟨e', he', hei, _⟩
      · rw [hnil]; rfl
      · rw [he', emitsFor_single, if_neg (fun hE => hne (by rw [← hE, hei]))]
  · intro i
    rcases hem with hnil | ⟨e', he', _, _⟩
    · rw [hnil]; exact Nat.zero_le 1
    · rw [he', emitsFor_single]
      split <;> omega
  · intro i h1
    rcases hem with hnil | ⟨e', he', hei, hdone⟩
    · rw [hnil] at h1; exact absurd h1 (by simp [emitsFor])
    · rw [he', emitsFor_single] at h1
      by_cases hie : e'.idx = i
      · have hii : i = idx := by rw [← hie, hei]
        subst hii
        obtain ⟨u, hu, hdu⟩ := Option.map_eq_some'.mp hdone
        exact stepDoneAt_of_some_done hu hdu
      · rw [if_neg hie] at h1
        exact absurd h1 (by omega)
  · intro i h1
    rcases hem with hnil | ⟨e', he', hei, hdone⟩
    · rw [hnil] at h1; exact absurd h1 (by simp [emitsFor])
    · rw [he', emitsFor_single] at h1
      by_cases hie : e'.idx = i
      · have hii : i = idx := by rw [← hie, hei]
        subst hii
        exact ⟨t0, hg0, hd0⟩
      · rw [if_neg hie] at h1
        exact absurd h1 (by omega)

/-- Properties of a result that changes no step and emits nothing. -/
theorem id_spec (s : Session) (r : Session × List Emit)
    (hts : r.1.tests = s.tests) (hem : r.2 = []) :
    (r.1.tests.length = s.tests.length)
    ∧ (∀ i t, getStep s.tests i = some t → t.done = true →
        getStep r.1.tests i = some t ∧ emitsFor r.2 i = 0)
    ∧ (∀ i, emitsFor r.2 i ≤ 1)
    ∧ (∀ i, 1 ≤ emitsFor r.2 i → stepDoneAt r.1 i = true)
    ∧ (∀ i, 1 ≤ emitsFor r.2 i →
        ∃ u, getStep s.tests i = some u ∧ u.done = false) := by
  refine ⟨by rw [hts], ?_, ?_, ?_, ?_⟩
  · intro i t hi _
    exact ⟨by rw [hts]; exact hi, by rw [hem]; rfl⟩
  · intro i; rw [hem]; exact Nat.zero_le 1
  · intro i h1; rw [hem] at h1; exact absurd h1 (by simp [emitsFor])
  · intro i h1; rw [hem] at h1; exact absurd h1 (by simp [emitsFor])

/-- Properties derived from the positional loop specifications
(`_check_timeouts` and `_finalize_unfinished`), transported to 1-based
step access. -/
theorem auxlike_spec (s : Session) (ts1 : List Step) (ems : List Emit)
    (hlen : ts1.length = s.tests.length)
    (hdone : ∀ k t, s.tests.get? k = some t → t.done = true → ts1.get? k = some t)
    (hle : ∀ i, emitsFor ems i ≤ 1)
    (hpos : ∀ i, 1 ≤ emitsFor ems i →
        1 ≤ i ∧ i < 1 + s.tests.length
        ∧ (∃ t0, s.tests.get? (i - 1) = some t0 ∧ t0.done = false)
        ∧ ∃ u, ts1.get? (i - 1) = some u ∧ u.done = true)
    (r : Session × List Emit) (hr1 : r.1.tests = ts1) (hr2 : r.2 = ems) :
    (r.1.tests.length = s.tests.length)
    ∧ (∀ i t, getStep s.tests i = some t → t.done = true →
        getStep r.1.tests i = some t ∧ emitsFor r.2 i = 0)
    ∧ (∀ i, emitsFor r.2 i ≤ 1)
    ∧ (∀ i, 1 ≤ emitsFor r.2 i → stepDoneAt r.1 i = true)
    ∧ (∀ i, 1 ≤ emitsFor r.2 i →
        ∃ u, getStep s.tests i = some u ∧ u.done = false) := by
  refine ⟨by rw [hr1, hlen], ?_, ?_, ?_, ?_⟩
  · intro i t hi hd
    have hb := getStep_bounds hi
    have hi0 : i ≠ 0 := by omega
    rw [getStep_eq_get? hi0] at hi
    constructor
    · rw [hr1, getStep_eq_get? hi0]
      exact hdone (i - 1) t hi hd
    · rw [hr2]
      by_contra hne
      have h1 : 1 ≤ emitsFor ems i := Nat.one_le_iff_ne_zero.mpr hne
      obtain ⟨_, _, ⟨t0, ht0, hdt0⟩, _⟩ := hpos i h1
      rw [hi] at ht0
      cases ht0
      rw [hd] at hdt0
      exact Bool.noConfusion hdt0
  · intro i; rw [hr2]; exact hle i
  · intro i h1
    rw [hr2] at h1
    obtain ⟨hge, _, _, u, hu, hdu⟩ := hpos i h1
    refine stepDoneAt_of_some_done ?_ hdu
    rw [getStep_eq_get? (by omega), hr1]
    exact hu
  · intro i h1
    rw [hr2] at h1
    obtain ⟨hge, _, ⟨t0, ht0, hdt0⟩, _⟩ := hpos i h1
    refine ⟨t0, ?_, hdt0⟩
    rw [getStep_eq_get? (by omega)]
    exact ht0

theorem checkTimeouts_not_running (now : Int) (s : Session)
    (hr : s.running = false) : checkTimeouts now s = (s, []) := by
  unfold checkTimeouts
  rw [hr]
  rfl

theorem checkTimeouts_running_eq (now : Int) (s : Session) (hr : s.running = true) :
    (checkTimeouts now s).1.tests = (checkTimeoutsAux now s.tests 1).1
    ∧ (checkTimeouts now s).2 = (checkTimeoutsAux now s.tests 1).2 := by
  unfold checkTimeouts
  rw [hr]
  exact ⟨rfl, rfl⟩

/-- Every engine event preserves the step-list length, never touches or
re-notifies a finalized step, notifies at most once per step index, and
when it notifies for an index the step was pending before and is
finalized afterwards. -/
theorem stepEvent_spec (perform : String → Bool × String) (s : Session) (e : Event) :
    ((stepEvent perform s e).1.tests.length = s.tests.length)
    ∧ (∀ i t, getStep s.tests i = some t → t.done = true →
        getStep (stepEvent perform s e).1.tests i = some t
        ∧ emitsFor (stepEvent perform s e).2 i = 0)
    ∧ (∀ i, emitsFor (stepEvent perform s e).2 i ≤ 1)
    ∧ (∀ i, 1 ≤ emitsFor (stepEvent perform s e).2 i →
        stepDoneAt (stepEvent perform s e).1 i = true)
    ∧ (∀ i, 1 ≤ emitsFor (stepEvent perform s e).2 i →
        ∃ u, getStep s.tests i = some u ∧ u.done = false) := by
  cases e with
  | line raw =>
    obtain ⟨hfields, hshape⟩ := processLineSequential_spec perform s (dispatchPayload raw)
    cases hfu : s.firstUnfinished with
    | none =>
      simp only [hfu] at hshape
      exact id_spec s _ hshape.1 hshape.2
    | some idx =>
      simp only [hfu] at hshape
      obtain ⟨t0, hg0, hd0⟩ := firstUnfinished_not_done hfu
      exact shape_spec s _ idx t0 hg0 hd0 hshape.1 hshape.2
  | tick now =>
    cases hrun : s.running with
    | false =>
      have hid := checkTimeouts_not_running now s hrun
      refine id_spec s (stepEvent perform s (.tick now)) ?_ ?_
      · show (checkTimeouts now s).1.tests = s.tests
        rw [hid]
      · show (checkTimeouts now s).2 = []
        rw [hid]
    | true =>
      obtain ⟨hlen, hdone, hle, hpos⟩ := checkTimeoutsAux_spec now s.tests 1
      obtain ⟨h1, h2⟩ := checkTimeouts_running_eq now s hrun
      exact auxlike_spec s (checkTimeoutsAux now s.tests 1).1
        (checkTimeoutsAux now s.tests 1).2 hlen hdone hle hpos
        (stepEvent perform s (.tick now)) h1 h2
  | actions =>
    obtain ⟨_, hlen, hdone, hle, hpos⟩ :=
      runPendingActionsGo_spec perform (s.tests.length + 1) s
    refine ⟨hlen, ?_, hle, ?_, ?_⟩
    · intro i t hi hd
      refine ⟨hdone i t hi hd, ?_⟩
      by_contra hne
      have h1 := Nat.one_le_iff_ne_zero.mpr hne
      obtain ⟨⟨v, hv, hdv⟩, _⟩ := hpos i h1
      rw [hi] at hv
      cases hv
      rw [hd] at hdv
      exact Bool.noConfusion hdv
    · intro i h1
      obtain ⟨_, u, hu, hdu⟩ := hpos i h1
      exact stepDoneAt_of_some_done hu hdu
    · intro i h1
      obtain ⟨⟨v, hv, hdv⟩, _⟩ := hpos i h1
      exact ⟨v, hv, hdv⟩
  | catchup =>
    cases hfu : s.firstUnfinished with
    | none =>
      have hres : stepEvent perform s .catchup = (s, []) := by
        show (match s.firstUnfinished with
              | some cur => scanHistoryForStep s cur
              | none => (s, [])) = (s, [])
        rw [hfu]
      refine id_spec s _ ?_ ?_
      · rw [hres]
      · rw [hres]
    | some cur =>
      have hres : stepEvent perform s .catchup = scanHistoryForStep s cur := by
        show (match s.firstUnfinished with
              | some cur => scanHistoryForStep s cur
              | none => (s, [])) = _
        rw [hfu]
      obtain ⟨t0, hg0, hd0⟩ := firstUnfinished_not_done hfu
      obtain ⟨hfields, hts, hem⟩ := scanHistoryForStep_spec s cur
      have h := shape_spec s (scanHistoryForStep s cur) cur t0 hg0 hd0 hts hem
      rw [hres]
      exact h
  | stop reason =>
    obtain ⟨hlen, hdone, hle, hpos⟩ := finalizeUnfinishedAux_spec reason s.tests 1
    exact auxlike_spec s (finalizeUnfinishedAux reason s.tests 1).1
      (finalizeUnfinishedAux reason s.tests 1).2 hlen hdone hle hpos
      (stepEvent perform s (.stop reason)) rfl rfl

theorem stepDoneAt_mono (perform : String → Bool × String) (s : Session) (e : Event)
    (i : Nat) (h : stepDoneAt s i = true) :
    stepDoneAt (stepEvent perform s e).1 i = true := by
  obtain ⟨hlen, hfrozen, _, _, _⟩ := stepEvent_spec perform s e
  unfold stepDoneAt at h ⊢
  cases hg : getStep s.tests i with
  | some t =>
    rw [hg] at h
    rw [(hfrozen i t hg h).1]
    exact h
  | none =>
    have hnone : getStep (stepEvent perform s e).1.tests i = none := by
      by_cases hi : i = 0
      · unfold getStep
        rw [if_pos hi]
      · rw [getStep_eq_get? hi] at hg ⊢
        rw [List.get?_eq_none] at hg ⊢
        rw [hlen]
        exact hg
    rw [hnone]

theorem runEvents_cons (perform : String → Bool × String) (s : Session)
    (e : Event) (es : List Event) :
    runEvents perform s (e :: es) =
      ((runEvents perform (stepEvent perform s e).1 es).1,
       (stepEvent perform s e).2 ++ (runEvents perform (stepEvent perform s e).1 es).2) := rfl

/-- Along any event trace, a finalized step's record is never changed and
never re-notified. -/
theorem runEvents_frozen (perform : String → Bool × String) :
    ∀ (evs : List Event) (s : Session) (i : Nat) (t : Step),
      getStep s.tests i = some t → t.done = true →
      getStep (runEvents perform s evs).1.tests i = some t
      ∧ emitsFor (runEvents perform s evs).2 i = 0 := by
  intro evs
  induction evs with
  | nil =>
    intro s i t hi _
    exact ⟨hi, rfl⟩
  | cons e es ih =>
    intro s i t hi hd
    rw [runEvents_cons]
    obtain ⟨_, hfrozen, _, _, _⟩ := stepEvent_spec perform s e
    obtain ⟨h1, h2⟩ := hfrozen i t hi hd
    obtain ⟨h3, h4⟩ := ih (stepEvent perform s e).1 i t h1 hd
    refine ⟨h3, ?_⟩
    simp only
    rw [emitsFor_append, h2, h4]

/-- Along any event trace, step `i` is notified at most once, and not at
all when it starts out finalized. -/
theorem runEvents_count (perform : String → Bool × String) :
    ∀ (evs : List Event) (s : Session) (i : Nat),
      emitsFor (runEvents perform s evs).2 i ≤
        (if stepDoneAt s i = true then 0 else 1) := by
  intro evs
  induction evs with
  | nil =>
    intro s i
    have hz : emitsFor (runEvents perform s []).2 i = 0 := rfl
    rw [hz]
    split <;> omega
  | cons e es ih =>
    intro s i
    rw [runEvents_cons]
    simp only
    rw [emitsFor_append]
    obtain ⟨_, hfrozen, hle, hdoneafter, hbefore⟩ := stepEvent_spec perform s e
    by_cases hdone : stepDoneAt s i = true
    · rw [if_pos hdone]
      have hem0 : emitsFor (stepEvent perform s e).2 i = 0 := by
        by_contra hne
        have h1 := Nat.one_le_iff_ne_zero.mpr hne
        obtain ⟨u, hu, hdu⟩ := hbefore i h1
        have hdone1 : u.done = true := by
          unfold stepDoneAt at hdone
          rw [hu] at hdone
          exact hdone
        rw [hdone1] at hdu
        exact Bool.noConfusion hdu
      have hrest := ih (stepEvent perform s e).1 i
      rw [if_pos (stepDoneAt_mono perform s e i hdone)] at hrest
      omega
    · rw [if_neg hdone]
      by_cases h1 : 1 ≤ emitsFor (stepEvent perform s e).2 i
      · have hda := hdoneafter i h1
        have hrest := ih (stepEvent perform s e).1 i
        rw [if_pos hda] at hrest
        have hone := hle i
        omega
      · have hz : emitsFor (stepEvent perform s e).2 i = 0 := by omega
        have hrest := ih (stepEvent perform s e).1 i
        have hb1 : (if stepDoneAt (stepEvent perform s e).1 i = true then 0 else 1) ≤ 1 := by
          split <;> omega
        omega

theorem stepEvent_payloadHistory (perform : String → Bool × String)
    (s : Session) (e : Event) :
    (stepEvent perform s e).1.payloadHistory = s.payloadHistory := by
  cases e with
  | line raw => exact (processLineSequential_spec perform s (dispatchPayload raw)).1.1
  | tick now =>
    show (checkTimeouts now s).1.payloadHistory = s.payloadHistory
    unfold checkTimeouts
    split
    · rfl
    · rfl
  | actions => exact (runPendingActionsGo_spec perform (s.tests.length + 1) s).1.1
  | catchup =>
    cases hfu : s.firstUnfinished with
    | none =>
      have hres : stepEvent perform s .catchup = (s, []) := by
        show (match s.firstUnfinished with
              | some cur => scanHistoryForStep s cur
              | none => (s, [])) = (s, [])
        rw [hfu]
      rw [hres]
    | some cur =>
      have hres : stepEvent perform s .catchup = scanHistoryForStep s cur := by
        show (match s.firstUnfinished with
              | some cur => scanHistoryForStep s cur
              | none => (s, [])) = _
        rw [hfu]
      rw [hres]
      exact (scanHistoryForStep_spec s cur).1.1
  | stop reason =>
    show (finalizeUnfinished reason s).1.payloadHistory = s.payloadHistory
    unfold finalizeUnfinished
    rfl

/-- Nothing in the engine ever appends to `_payload_history`: it is
invariant along every event trace. -/
theorem runEvents_payloadHistory (perform : String → Bool × String) :
    ∀ (evs : List Event) (s : Session),
      (runEvents perform s evs).1.payloadHistory = s.payloadHistory := by
  intro evs
  induction evs with
  | nil => intro s; rfl
  | cons e es ih =>
    intro s
    rw [runEvents_cons]
    simp only
    rw [ih (stepEvent perform s e).1, stepEvent_payloadHistory]

/-! ### Sanitizer no-op and idempotence lemmas (for claim C9) -/

theorem pyReplaceGo_noop (pat rep : List Char) (c0 : Char)
    (hc0 : pat.head? = some c0) (hup : isUpperAZ c0 = true) :
    ∀ (f : Nat) (l : List Char), (∀ c ∈ l, isUpperAZ c = false) →
      pyReplaceGo pat rep f l = l
  | 0, _, _ => rfl
  | _ + 1, [], _ => rfl
  | f + 1, c :: rs, h => by
    have hpre : pat.isPrefixOf (c :: rs) = false := by
      cases pat with
      | nil => simp at hc0
      | cons p ps =>
        have hp : p = c0 := by simpa using hc0
        have hc : isUpperAZ c = false := h c (List.mem_cons_self _ _)
        have hpc : (p == c) = false := by
          apply beq_eq_false_iff_ne.mpr
          intro hEq
          rw [hp] at hEq
          rw [hEq] at hup
          rw [hup] at hc
          exact Bool.noConfusion hc
        show (p == c && ps.isPrefixOf rs) = false
        rw [hpc, Bool.false_and]
    unfold pyReplaceGo
    rw [hpre]
    simp only [Bool.false_eq_true, if_false]
    rw [pyReplaceGo_noop pat rep c0 hc0 hup f rs (fun c hm => h c (List.mem_cons_of_mem _ hm))]

theorem pyReplace_noop (pat rep : List Char) (c0 : Char)
    (hc0 : pat.head? = some c0) (hup : isUpperAZ c0 = true)
    (l : List Char) (h : ∀ c ∈ l, isUpperAZ c = false) :
    pyReplace l pat rep = l :=
  pyReplaceGo_noop pat rep c0 hc0 hup l.length l h

theorem removeTokens_noop (l : List Char) (h : ∀ c ∈ l, isUpperAZ c = false) :
    removeTokens l = l := by
  show pyReplace (pyReplace (pyReplace (pyReplace l "TELETELE".data " ".data)
    "AOTA".data " ".data) "CCU2s".data " ".data) "CCU2c".data " ".data = l
  rw [pyReplace_noop "TELETELE".data " ".data 'T' rfl rfl l h,
      pyReplace_noop "AOTA".data " ".data 'A' rfl rfl l h,
      pyReplace_noop "CCU2s".data " ".data 'C' rfl rfl l h,
      pyReplace_noop "CCU2c".data " ".data 'C' rfl rfl l h]

theorem collapseTryL_none (rest : List Char) (L : Nat) (hL : 1 ≤ L)
    (h : ∀ c ∈ rest, isUpperAZ c = false) : collapseTryL rest L = none := by
  unfold collapseTryL
  cases rest with
  | nil =>
    have : List.length (List.take L ([] : List Char)) = 0 := by simp
    rw [if_neg]
    intro hcon
    rw [Bool.and_eq_true] at hcon
    have := hcon.1
    simp at this
    omega
  | cons c rs =>
    cases L with
    | zero => omega
    | succ L' =>
      rw [if_neg]
      intro hcon
      rw [Bool.and_eq_true] at hcon
      have hall := hcon.2
      rw [List.all_eq_true] at hall
      have hc := hall c (by simp [List.take_cons])
      have := h c (List.mem_cons_self _ _)
      rw [this] at hc
      exact Bool.noConfusion hc

theorem collapseTryUpto_none (rest : List Char)
    (h : ∀ c ∈ rest, isUpperAZ c = false) :
    ∀ n : Nat, collapseTryUpto rest n = none
  | 0 => rfl
  | 1 => rfl
  | 2 => rfl
  | n + 3 => by
    unfold collapseTryUpto
    rw [collapseTryL_none rest (n + 3) (by omega) h]
    exact collapseTryUpto_none rest h (n + 2)

theorem collapseGo_noop :
    ∀ (f : Nat) (prev : Option Char) (l : List Char),
      (∀ c ∈ l, isUpperAZ c = false) → collapseGo f prev l = l
  | 0, _, _, _ => rfl
  | _ + 1, _, [], _ => rfl
  | f + 1, prev, c :: rs, h => by
    unfold collapseGo
    rw [collapseTryUpto_none (c :: rs) h 10]
    have ih := collapseGo_noop f (some c) rs (fun x hm => h x (List.mem_cons_of_mem _ hm))
    cases prev with
    | none =>
      simp only [ih]
      split <;> rfl
    | some p =>
      simp only [ih]
      split <;> rfl

theorem eqTagTryU_none (r2 : List Char) (h : ∀ c ∈ r2, isUpperAZ c = false) :
    ∀ U : Nat, eqTagTryU r2 U = none
  | 0 => rfl
  | 1 => rfl
  | U + 2 => by
    unfold eqTagTryU
    rw [if_neg]
    · exact eqTagTryU_none r2 h (U + 1)
    · intro hcon
      rw [Bool.and_eq_true] at hcon
      cases r2 with
      | nil =>
        have := hcon.1
        simp at this
      | cons c rs =>
        have hall := hcon.2
        rw [List.all_eq_true] at hall
        have hc := hall c (by simp [List.take_cons])
        have := h c (List.mem_cons_self _ _)
        rw [this] at hc
        exact Bool.noConfusion hc

theorem eqTagGo_noop :
    ∀ (f : Nat) (l : List Char), (∀ c ∈ l, isUpperAZ c = false) →
      eqTagGo f l = l
  | 0, _, _ => rfl
  | _ + 1, [], _ => rfl
  | f + 1, c :: rs, h => by
    unfold eqTagGo
    have ih := eqTagGo_noop f rs (fun x hm => h x (List.mem_cons_of_mem _ hm))
    by_cases hc : c = '='
    · rw [if_pos hc]
      have hdropmem : ∀ x ∈ rs.drop (countWhile isPySpace rs), isUpperAZ x = false :=
        fun x hm => h x (List.mem_cons_of_mem _ (List.mem_of_mem_drop hm))
      simp only [eqTagTryU_none _ hdropmem]
      rw [ih]
    · rw [if_neg hc, ih]

theorem gtgtGo_noop :
    ∀ (f : Nat) (l : List Char), (∀ c ∈ l, c ≠ '>') → gtgtGo f l = l
  | 0, _, _ => rfl
  | _ + 1, [], _ => rfl
  | f + 1, c :: rs, h => by
    unfold gtgtGo
    have ih := gtgtGo_noop f rs (fun x hm => h x (List.mem_cons_of_mem _ hm))
    dsimp only
    split
    · rename_i r2 heq
      exfalso
      have hmem : '>' ∈ (c :: rs).drop (countWhile isPySpace (c :: rs)) := by
        rw [heq]; exact List.mem_cons_self _ _
      exact h '>' (List.mem_of_mem_drop hmem) rfl
    · rw [ih]

theorem wsCollapseGo_mem :
    ∀ (b : Bool) (u : List Char) (c : Char), c ∈ wsCollapseGo b u →
      c = ' ' ∨ (c ∈ u ∧ isPySpace c = false)
  | b, [], c, hm => by simp [wsCollapseGo] at hm
  | b, d :: rs, c, hm => by
    unfold wsCollapseGo at hm
    by_cases hd : isPySpace d = true
    · rw [if_pos hd] at hm
      cases b with
      | true =>
        rcases wsCollapseGo_mem true rs c hm with h1 | ⟨h2, h3⟩
        · exact Or.inl h1
        · exact Or.inr ⟨List.mem_cons_of_mem _ h2, h3⟩
      | false =>
        rcases List.mem_cons.mp hm with h1 | h1
        · exact Or.inl h1
        · rcases wsCollapseGo_mem true rs c h1 with h2 | ⟨h2, h3⟩
          · exact Or.inl h2
          · exact Or.inr ⟨List.mem_cons_of_mem _ h2, h3⟩
    · rw [if_neg hd] at hm
      rcases List.mem_cons.mp hm with h1 | h1
      · subst h1
        exact Or.inr ⟨List.mem_cons_self _ _, Bool.not_eq_true _ ▸ (by simpa using hd)⟩
      · rcases wsCollapseGo_mem false rs c h1 with h2 | ⟨h2, h3⟩
        · exact Or.inl h2
        · exact Or.inr ⟨List.mem_cons_of_mem _ h2, h3⟩

theorem wsCollapseGo_true_head :
    ∀ (u : List Char) (d : Char), (wsCollapseGo true u).head? = some d →
      isPySpace d = false
  | [], d, hd => by simp [wsCollapseGo] at hd
  | c :: rs, d, hd => by
    unfold wsCollapseGo at hd
    by_cases hc : isPySpace c = true
    · rw [if_pos hc, if_pos rfl] at hd
      exact wsCollapseGo_true_head rs d hd
    · rw [if_neg hc] at hd
      simp only [List.head?_cons, Option.some.injEq] at hd
      rw [← hd]
      simpa using hc

theorem wsCollapseGo_noAdj :
    ∀ (b : Bool) (u : List Char), NoAdjWS (wsCollapseGo b u)
  | _, [] => by simp [wsCollapseGo, NoAdjWS]
  | b, c :: rs => by
    unfold wsCollapseGo
    by_cases hc : isPySpace c = true
    · rw [if_pos hc]
      cases b with
      | true =>
        rw [if_pos rfl]
        exact wsCollapseGo_noAdj true rs
      | false =>
        rw [if_neg (fun hcon => Bool.noConfusion hcon)]
        rw [NoAdjWS, List.chain'_cons']
        refine ⟨?_, wsCollapseGo_noAdj true rs⟩
        intro y hy
        exact Or.inr (wsCollapseGo_true_head rs y hy)
    · rw [if_neg hc]
      rw [NoAdjWS, List.chain'_cons']
      refine ⟨?_, wsCollapseGo_noAdj false rs⟩
      intro y hy
      exact Or.inl (by simpa using hc)

theorem mem_stripL {c : Char} {l : List Char} (h : c ∈ stripL l) : c ∈ l := by
  unfold stripL at h
  rw [List.mem_reverse] at h
  have h2 : c ∈ (l.dropWhile isPySpace).reverse :=
    (List.dropWhile_sublist _).subset h
  rw [List.mem_reverse] at h2
  exact (List.dropWhile_sublist _).subset h2

theorem stripL_isInfix (l : List Char) : stripL l <:+: l := by
  unfold stripL
  have h1 : l.dropWhile isPySpace <:+ l := List.dropWhile_suffix _
  have h2 : (l.dropWhile isPySpace).reverse.dropWhile isPySpace <:+
      (l.dropWhile isPySpace).reverse := List.dropWhile_suffix _
  have h3 : ((l.dropWhile isPySpace).reverse.dropWhile isPySpace).reverse <+:
      l.dropWhile isPySpace := by
    rw [← List.reverse_suffix]
    simpa using h2
  exact h3.isInfix.trans h1.isInfix

theorem noAdjWS_stripL {l : List Char} (h : NoAdjWS l) : NoAdjWS (stripL l) :=
  List.Chain'.infix h (stripL_isInfix l)

theorem wsCollapseGo_id :
    ∀ (v : List Char), (∀ c ∈ v, isPySpace c = true → c = ' ') → NoAdjWS v →
      wsCollapseGo false v = v ∧
      ((∀ d, v.head? = some d → isPySpace d = false) → wsCollapseGo true v = v)
  | [], _, _ => ⟨rfl, fun _ => rfl⟩
  | c :: rs, hv, hadj => by
    have hvt : ∀ x ∈ rs, isPySpace x = true → x = ' ' :=
      fun x hx => hv x (List.mem_cons_of_mem _ hx)
    rw [NoAdjWS, List.chain'_cons'] at hadj
    obtain ⟨hR, hrest⟩ := hadj
    have ih := wsCollapseGo_id rs hvt hrest
    constructor
    · unfold wsCollapseGo
      by_cases hc : isPySpace c = true
      · rw [if_pos hc, if_neg (fun hcon => Bool.noConfusion hcon)]
        have hsp : c = ' ' := hv c (List.mem_cons_self _ _) hc
        have hheads : ∀ d, rs.head? = some d → isPySpace d = false := by
          intro d hd
          rcases hR d (by rw [hd]; rfl) with h1 | h1
          · rw [h1] at hc; exact Bool.noConfusion hc
          · exact h1
        rw [ih.2 hheads, hsp]
      · rw [if_neg hc, ih.1]
    · intro hh
      unfold wsCollapseGo
      have hc : isPySpace c = false := hh c rfl
      rw [if_neg (by rw [hc]; exact fun hcon => Bool.noConfusion hcon), ih.1]

theorem dropWhile_head_not (p : Char → Bool) :
    ∀ (l : List Char) (c : Char), (l.dropWhile p).head? = some c → p c = false
  | [], c, h => by simp at h
  | d :: rs, c, h => by
    rw [List.dropWhile_cons] at h
    by_cases hd : p d = true
    · rw [if_pos hd] at h
      exact dropWhile_head_not p rs c h
    · rw [if_neg hd] at h
      simp only [List.head?_cons, Option.some.injEq] at h
      rw [← h]
      simpa using hd

theorem dropWhile_eq_self_of_head (p : Char → Bool) (l : List Char)
    (h : ∀ c, l.head? = some c → p c = false) : l.dropWhile p = l := by
  cases l with
  | nil => rfl
  | cons d rs =>
    rw [List.dropWhile_cons, if_neg (by simp [h d rfl])]

theorem getLast?_dropWhile (p : Char → Bool) :
    ∀ (l : List Char) (c : Char), (l.dropWhile p).getLast? = some c →
      l.getLast? = some c
  | [], c, h => by simp at h
  | d :: rs, c, h => by
    rw [List.dropWhile_cons] at h
    by_cases hd : p d = true
    · rw [if_pos hd] at h
      have hrec := getLast?_dropWhile p rs c h
      cases rs with
      | nil => simp at hrec
      | cons e es =>
        rw [List.getLast?_cons_cons]
        exact hrec
    · rw [if_neg hd] at h
      exact h

theorem stripL_head (v : List Char) (c : Char)
    (h : (stripL v).head? = some c) : isPySpace c = false := by
  unfold stripL at h
  rw [List.head?_reverse] at h
  have h2 := getLast?_dropWhile isPySpace _ c h
  rw [List.getLast?_reverse] at h2
  exact dropWhile_head_not isPySpace v c h2

theorem stripL_getLast (v : List Char) (c : Char)
    (h : (stripL v).getLast? = some c) : isPySpace c = false := by
  unfold stripL at h
  rw [List.getLast?_reverse] at h
  exact dropWhile_head_not isPySpace _ c h

theorem stripL_eq_self (w : List Char)
    (h1 : ∀ c, w.head? = some c → isPySpace c = false)
    (h2 : ∀ c, w.getLast? = some c → isPySpace c = false) :
    stripL w = w := by
  unfold stripL
  rw [dropWhile_eq_self_of_head _ _ h1]
  rw [dropWhile_eq_self_of_head _ _
    (fun c hc => h2 c (by rwa [List.head?_reverse] at hc))]
  exact List.reverse_reverse w

theorem stripL_idem (v : List Char) : stripL (stripL v) = stripL v :=
  stripL_eq_self _ (stripL_head v) (stripL_getLast v)

theorem map_id_of_mem {f : Char → Char} :
    ∀ (l : List Char), (∀ c ∈ l, f c = c) → l.map f = l
  | [], _ => rfl
  | c :: rs, h => by
    simp only [List.map_cons]
    rw [h c (List.mem_cons_self _ _),
        map_id_of_mem rs (fun x hx => h x (List.mem_cons_of_mem _ hx))]

theorem collapseRepeats_noop (l : List Char)
    (h : ∀ c ∈ l, isUpperAZ c = false) : collapseRepeats l = l :=
  collapseGo_noop l.length none l h

theorem eqTagStrip_noop (l : List Char)
    (h : ∀ c ∈ l, isUpperAZ c = false) : eqTagStrip l = l :=
  eqTagGo_noop l.length l h

theorem gtgtNorm_noop (l : List Char)
    (h : ∀ c ∈ l, c ≠ '>') : gtgtNorm l = l :=
  gtgtGo_noop l.length l h

theorem filterMap_plain (l : List Char)
    (h : ∀ c ∈ l, isUpperAZ c = false ∧ c ≠ '>') :
    ∀ c ∈ (l.map crlfChar).filter keepPrintable,
      isUpperAZ c = false ∧ c ≠ '>' := by
  intro c hc
  have hc2 : c ∈ l.map crlfChar := List.mem_of_mem_filter hc
  rcases List.mem_map.mp hc2 with ⟨c', hc', rfl⟩
  rcases h c' hc' with ⟨h1, h2⟩
  unfold crlfChar
  split
  · exact ⟨rfl, by decide⟩
  · exact ⟨h1, h2⟩

theorem sanitizeList_plain (l : List Char)
    (h : ∀ c ∈ l, isUpperAZ c = false ∧ c ≠ '>') :
    sanitizeList l = stripL (wsCollapse ((l.map crlfChar).filter keepPrintable)) := by
  have hw := filterMap_plain l h
  unfold sanitizeList
  rw [removeTokens_noop _ (fun c hc => (hw c hc).1),
      collapseRepeats_noop _ (fun c hc => (hw c hc).1),
      eqTagStrip_noop _ (fun c hc => (hw c hc).1),
      gtgtNorm_noop _ (fun c hc => (hw c hc).2)]

theorem sanitizeList_idem (l : List Char)
    (h : ∀ c ∈ l, isUpperAZ c = false ∧ c ≠ '>') :
    sanitizeList (sanitizeList l) = sanitizeList l := by
  rw [sanitizeList_plain l h]
  have hw := filterMap_plain l h
  have hmmem : ∀ c ∈ stripL (wsCollapse ((l.map crlfChar).filter keepPrintable)),
      c = ' ' ∨ (c ∈ (l.map crlfChar).filter keepPrintable ∧ isPySpace c = false) :=
    fun c hc => wsCollapseGo_mem false _ c (mem_stripL hc)
  set w := (l.map crlfChar).filter keepPrintable with hwdef
  set m := stripL (wsCollapse w) with hmdef
  have hup : ∀ c ∈ m, isUpperAZ c = false := by
    intro c hc
    rcases hmmem c hc with h1 | ⟨h2, _⟩
    · rw [h1]; decide
    · exact (hw c h2).1
  have hgt : ∀ c ∈ m, c ≠ '>' := by
    intro c hc
    rcases hmmem c hc with h1 | ⟨h2, _⟩
    · rw [h1]; decide
    · exact (hw c h2).2
  have hcrlf : ∀ c ∈ m, crlfChar c = c := by
    intro c hc
    rcases hmmem c hc with h1 | ⟨_, h3⟩
    · rw [h1]; decide
    · unfold crlfChar
      rw [if_neg]
      intro hcon
      rcases (by simpa using hcon : c = '\r' ∨ c = '\n') with hr | hn
      · rw [hr] at h3; exact absurd h3 (by decide)
      · rw [hn] at h3; exact absurd h3 (by decide)
  have hkeep : ∀ c ∈ m, keepPrintable c = true := by
    intro c hc
    rcases hmmem c hc with h1 | ⟨h2, _⟩
    · rw [h1]; decide
    · exact List.of_mem_filter h2
  have hmap : m.map crlfChar = m := map_id_of_mem m hcrlf
  have hfilt : m.filter keepPrintable = m := List.filter_eq_self.mpr hkeep
  have hSp : ∀ c ∈ m, isPySpace c = true → c = ' ' := by
    intro c hc hsp
    rcases hmmem c hc with h1 | ⟨_, h3⟩
    · exact h1
    · rw [h3] at hsp; exact Bool.noConfusion hsp
  have hAdjm : NoAdjWS m := noAdjWS_stripL (wsCollapseGo_noAdj false w)
  have hws : wsCollapse m = m := (wsCollapseGo_id m hSp hAdjm).1
  unfold sanitizeList
  rw [hmap, hfilt, removeTokens_noop m hup, collapseRepeats_noop m hup,
      eqTagStrip_noop m hup, gtgtNorm_noop m hgt]
  show stripL (wsCollapse m) = m
  rw [hws, hmdef]
  exact stripL_idem _

/-! ### Claims -/

/-- Claim C1 (code evidence): `line_matches` does not return a boolean
verdict.  For a literal rule whose pattern `"ZZZ"` does not occur in the
line `"hello world"`, the claim requires a falsy result; the function
instead returns the stripped raw line (the mis-indented fallback at
TRE_json.py line 322), a string that is Python-truthy. -/
theorem c1_line_matches_returns_raw_line :
    line_matches "hello world" { pattern := "ZZZ", literal := true }
      = .str "hello world"
    ∧ (line_matches "hello world" { pattern := "ZZZ", literal := true }).truthy
      = true := ⟨rfl, rfl⟩

/-- Claim C2: over an entire run (a freshly initialized session driven by
any sequence of engine events), each step index is notified at most once,
and once a step's record is finalized every later event leaves the record
unchanged and produces no further notification for that index. -/
theorem c2_step_finalized_at_most_once
    (perform : String → Bool × String) (specs : List StepSpec) (now : Int)
    (evs1 evs2 : List Event) (i : Nat) (t : Step)
    (h1 : getStep (runEvents perform (initSession specs now) evs1).1.tests i = some t)
    (h2 : t.done = true) :
    emitsFor (runEvents perform (initSession specs now) (evs1 ++ evs2)).2 i ≤ 1
    ∧ getStep (runEvents perform
        (runEvents perform (initSession specs now) evs1).1 evs2).1.tests i = some t
    ∧ emitsFor (runEvents perform
        (runEvents perform (initSession specs now) evs1).1 evs2).2 i = 0 := by
  refine ⟨?_, ?_, ?_⟩
  · have h := runEvents_count perform (evs1 ++ evs2) (initSession specs now) i
    revert h
    split <;> omega
  · exact (runEvents_frozen perform evs2 _ i t h1 h2).1
  · exact (runEvents_frozen perform evs2 _ i t h1 h2).2

/-- Witness for C2 at a concrete run: one `find` step finalized by the
first line, then further lines, a timeout poll and a stop. -/
theorem c2_witness :
    (getStep (runEvents performNone
        (initSession [⟨.find { pattern := "A" }, none⟩] 5) [.line "A"]).1.tests 1
      = some { rule := .find { pattern := "A" }, timeout := none, done := true,
               seqIdx := 0, t0 := 5, finalResult := some "PASS",
               finalLine := some (.payload "A") })
    ∧ ({ rule := .find { pattern := "A" }, timeout := none, done := true,
         seqIdx := 0, t0 := 5, finalResult := some "PASS",
         finalLine := some (.payload "A") } : Step).done = true
    ∧ (emitsFor (runEvents performNone
        (initSession [⟨.find { pattern := "A" }, none⟩] 5)
        ([.line "A"] ++ [.line "B", .tick 50, .stop "x"])).2 1 ≤ 1
      ∧ getStep (runEvents performNone
          (runEvents performNone (initSession [⟨.find { pattern := "A" }, none⟩] 5)
            [.line "A"]).1 [.line "B", .tick 50, .stop "x"]).1.tests 1
        = some { rule := .find { pattern := "A" }, timeout := none, done := true,
                 seqIdx := 0, t0 := 5, finalResult := some "PASS",
                 finalLine := some (.payload "A") }
      ∧ emitsFor (runEvents performNone
          (runEvents performNone (initSession [⟨.find { pattern := "A" }, none⟩] 5)
            [.line "A"]).1 [.line "B", .tick 50, .stop "x"]).2 1 = 0) :=
  ⟨rfl, rfl,
   c2_step_finalized_at_most_once performNone [⟨.find { pattern := "A" }, none⟩] 5
     [.line "A"] [.line "B", .tick 50, .stop "x"] 1 _ rfl rfl⟩

/-- Claim C3 (code evidence): a `NotFind` step with pattern `"ERROR"` is
finalized `FAIL` by the dispatched line `"hello"`, which does not contain
the forbidden pattern — because `line_matches` returns the truthy stripped
line for every non-blank payload.  The claim requires that a line not
matching the pattern never finalizes the step. -/
theorem c3_not_find_fails_on_nonmatching_line :
    (let r := processLineDispatch performNone
      (initSession [⟨.notFind { pattern := "ERROR" }, none⟩] 5) "hello"
     (getStep r.1.tests 1).map (fun t => (t.done, t.finalResult))
       = some (true, some "FAIL")
     ∧ r.2 = [⟨1, "FAIL", some (.payload "hello")⟩]) := ⟨rfl, rfl⟩

/-- Claim C4 (code evidence): a `Find` step with pattern `"XYZ"` and
`min_count = 2` has its counter incremented by the lines `"aaa"` and
`"bbb"` — neither of which contains the pattern — and is finalized `PASS`
on the second one.  The claim requires the counter to increment only on
matching lines. -/
theorem c4_find_counts_nonmatching_lines :
    (let r := runEvents performNone
      (initSession [⟨.find { pattern := "XYZ", min_count := 2 }, none⟩] 5)
      [.line "aaa", .line "bbb"]
     (getStep r.1.tests 1).map (fun t => (t.done, t.finalResult))
       = some (true, some "PASS")
     ∧ r.1.counts = [2]
     ∧ r.2 = [⟨1, "PASS", some (.payload "bbb")⟩]) := ⟨rfl, rfl, rfl⟩

/-- Claim C5 (code evidence): a `Sequence` step `["AAA", "BBB"]` advances
its cursor past element 1 on the dispatched line `"BBB"`, which does not
contain `"AAA"` — out-of-order presentation advances the cursor.  The
claim requires the cursor to advance only when the current element
matches. -/
theorem c5_sequence_advances_out_of_order :
    (let r := processLineDispatch performNone
      (initSession [⟨.sequence [.str "AAA", .str "BBB"], none⟩] 5) "BBB"
     (getStep r.1.tests 1).map (fun t => (t.seqIdx, t.done)) = some (1, false))
    ∧ (let r2 := runEvents performNone
        (initSession [⟨.sequence [.str "AAA", .str "BBB"], none⟩] 5)
        [.line "BBB", .line "zzz"]
       (getStep r2.1.tests 1).map (fun t => (t.done, t.finalResult))
         = some (true, some "PASS")) := ⟨rfl, rfl⟩

/-- Claim C6 (code evidence): the payload history buffer is invariant
(never appended to) along every event trace, so history catch-up can never
retroactively satisfy a step.  Concretely: the line `"A"` is dispatched
while step 1 is current (finalizing it), and the following catch-up tick
leaves step 2 pending even though a line that `line_matches` accepts for
its pattern was dispatched earlier.  The claim requires step 2 to be
finalized from history. -/
theorem c6_catchup_never_fires :
    (∀ (perform : String → Bool × String) (evs : List Event)
       (specs : List StepSpec) (now : Int),
       (runEvents perform (initSession specs now) evs).1.payloadHistory = [])
    ∧ (let r := runEvents performNone
        (initSession [⟨.find { pattern := "A" }, none⟩,
                      ⟨.find { pattern := "B" }, none⟩] 5)
        [.line "A", .catchup]
       (getStep r.1.tests 1).map (fun t => (t.done, t.finalResult))
         = some (true, some "PASS")
       ∧ (getStep r.1.tests 2).map (fun t => (t.done, t.finalResult))
         = some (false, none)
       ∧ r.1.payloadHistory = []) := by
  constructor
  · intro perform evs specs now
    rw [runEvents_payloadHistory]
    rfl
  · exact ⟨rfl, rfl, rfl⟩

/-- Claim C7 (code evidence): the dispatch pipeline's payload is the
sanitized *raw line*, not the sanitized extraction-heuristic slice — the
module-level `extract_payload` that `parse_dlt` calls does not exist, the
`NameError` is swallowed, and the raw line is used.  On
`"[hdr] BOOT OK"` the heuristic (branch 2: after the last `]`) yields
`"BOOT OK"`, but the pipeline produces the full line. -/
theorem c7_dispatch_skips_extraction :
    (∀ line : String, dispatchPayload line = sanitize_payload line)
    ∧ dispatchPayload "[hdr] BOOT OK" = "[hdr] BOOT OK"
    ∧ sanitize_payload (extract_payload "[hdr] BOOT OK") = "BOOT OK"
    ∧ dispatchPayload "[hdr] BOOT OK"
        ≠ sanitize_payload (extract_payload "[hdr] BOOT OK") := by
  refine ⟨fun line => rfl, rfl, rfl, ?_⟩
  decide

/-- Claim C8 (counterexample): with step 1 a pending `find` (default 120 s
timeout) and step 2 a `find` with a 1 s timeout, a single timeout poll at
`now = 50` (run started at 5) finalizes step 2 `FAIL` while step 1 is
still pending — a later step reaches a terminal result by timeout before
an earlier step has finished, contradicting the claim. -/
theorem c8_counterexample_later_step_times_out_first :
    (let r := stepEvent performNone
      (initSession [⟨.find { pattern := "AAA" }, none⟩,
                    ⟨.find { pattern := "BBB" }, some 1⟩] 5) (.tick 50)
     (getStep r.1.tests 1).map Step.done = some false
     ∧ (getStep r.1.tests 2).map (fun t => (t.done, t.finalResult))
       = some (true, some "FAIL")
     ∧ r.2 = [⟨2, "FAIL", some (.timeoutFail 1)⟩]) := ⟨rfl, rfl, rfl⟩

/-- Claim C8 (amended): strict FIFO holds for line dispatch and history
catch-up — both evaluate and may finalize only the first non-terminal
step, leaving every other step's record unchanged and emitting no
notification for it.  The periodic timeout check, by contrast, scans every
unfinished step (see the counterexample). -/
theorem c8_amended_dispatch_and_catchup_are_fifo
    (perform : String → Bool × String) (s : Session) (line : String) (j : Nat)
    (hj : ∀ idx, s.firstUnfinished = some idx → j ≠ idx) :
    (getStep (processLineDispatch perform s line).1.tests j = getStep s.tests j
     ∧ emitsFor (processLineDispatch perform s line).2 j = 0)
    ∧ (getStep (stepEvent perform s .catchup).1.tests j = getStep s.tests j
     ∧ emitsFor (stepEvent perform s .catchup).2 j = 0) := by
  unfold processLineDispatch
  constructor
  · obtain ⟨_, hshape⟩ := processLineSequential_spec perform s (dispatchPayload line)
    cases hfu : s.firstUnfinished with
    | none =>
      simp only [hfu] at hshape
      exact ⟨by rw [hshape.1], by rw [hshape.2]; rfl⟩
    | some idx =>
      simp only [hfu] at hshape
      obtain ⟨⟨f, hf⟩, hem⟩ := hshape
      have hne := hj idx hfu
      refine ⟨by rw [hf, getStep_updStep_ne _ _ _ _ hne], ?_⟩
      rcases hem with hnil | ⟨e', he', hei, _⟩
      · rw [hnil]; rfl
      · rw [he', emitsFor_single, if_neg (fun hE => hne (by rw [← hE, hei]))]
  · cases hfu : s.firstUnfinished with
    | none =>
      have hres : stepEvent perform s .catchup = (s, []) := by
        show (match s.firstUnfinished with
              | some cur => scanHistoryForStep s cur
              | none => (s, [])) = (s, [])
        rw [hfu]
      rw [hres]
      exact ⟨rfl, rfl⟩
    | some cur =>
      have hres : stepEvent perform s .catchup = scanHistoryForStep s cur := by
        show (match s.firstUnfinished with
              | some cur => scanHistoryForStep s cur
              | none => (s, [])) = _
        rw [hfu]
      obtain ⟨_, ⟨f, hf⟩, hem⟩ := scanHistoryForStep_spec s cur
      have hne := hj cur hfu
      rw [hres]
      refine ⟨by rw [hf, getStep_updStep_ne _ _ _ _ hne], ?_⟩
      rcases hem with hnil | ⟨e', he', hei, _⟩
      · rw [hnil]; rfl
      · rw [he', emitsFor_single, if_neg (fun hE => hne (by rw [← hE, hei]))]

/-- Witness for the amended C8: step 2 of a concrete two-step session is
untouched by a dispatched line and by a catch-up pass. -/
theorem c8_witness :
    (∀ idx, (initSession [⟨.find { pattern := "AAA" }, none⟩,
        ⟨.find { pattern := "BBB" }, none⟩] 5).firstUnfinished = some idx → 2 ≠ idx)
    ∧ ((getStep (processLineDispatch performNone
          (initSession [⟨.find { pattern := "AAA" }, none⟩,
            ⟨.find { pattern := "BBB" }, none⟩] 5) "zzz").1.tests 2
        = getStep (initSession [⟨.find { pattern := "AAA" }, none⟩,
            ⟨.find { pattern := "BBB" }, none⟩] 5).tests 2
       ∧ emitsFor (processLineDispatch performNone
          (initSession [⟨.find { pattern := "AAA" }, none⟩,
            ⟨.find { pattern := "BBB" }, none⟩] 5) "zzz").2 2 = 0)
      ∧ (getStep (stepEvent performNone
          (initSession [⟨.find { pattern := "AAA" }, none⟩,
            ⟨.find { pattern := "BBB" }, none⟩] 5) .catchup).1.tests 2
        = getStep (initSession [⟨.find { pattern := "AAA" }, none⟩,
            ⟨.find { pattern := "BBB" }, none⟩] 5).tests 2
       ∧ emitsFor (stepEvent performNone
          (initSession [⟨.find { pattern := "AAA" }, none⟩,
            ⟨.find { pattern := "BBB" }, none⟩] 5) .catchup).2 2 = 0)) :=
  ⟨fun idx h => by
      have h1 : idx = 1 := by
        have := h.symm
        simpa [Session.firstUnfinished, initSession, firstUnfinishedAux] using this
      omega,
   c8_amended_dispatch_and_catchup_are_fifo performNone
     (initSession [⟨.find { pattern := "AAA" }, none⟩,
       ⟨.find { pattern := "BBB" }, none⟩] 5) "zzz" 2
     (fun idx h => by
       have h1 : idx = 1 := by
         have := h.symm
         simpa [Session.firstUnfinished, initSession, firstUnfinishedAux] using this
       omega)⟩

/-- Claim C10: a `Sequence` step whose rule-body list is empty is
finalized `PASS` by the first dispatched line while it is the current
step, and likewise by the first history catch-up tick, without any
pattern being observed. -/
theorem c10_empty_sequence_passes_immediately
    (perform : String → Bool × String) (s : Session) (idx : Nat) (t : Step)
    (line : String)
    (hcur : s.firstUnfinished = some idx)
    (ht : getStep s.tests idx = some t)
    (hrule : t.rule = .sequence []) :
    (getStep (processLineDispatch perform s line).1.tests idx).map
        (fun u => (u.done, u.finalResult)) = some (true, some "PASS")
    ∧ (processLineDispatch perform s line).2 =
        [⟨idx, "PASS", some (.payload (dispatchPayload line))⟩]
    ∧ (getStep (stepEvent perform s .catchup).1.tests idx).map
        (fun u => (u.done, u.finalResult)) = some (true, some "PASS")
    ∧ (stepEvent perform s .catchup).2 = [⟨idx, "PASS", some (.payload "")⟩] := by
  have hb := getStep_bounds ht
  have htry : trySequence t [] (dispatchPayload line) = (true, t) := by
    unfold trySequence
    simp
  have hdisp : processLineDispatch perform s line =
      finalizeStep { s with tests := updStep s.tests idx (fun _ => t) } idx "PASS"
        (some (.payload (dispatchPayload line))) := by
    unfold processLineDispatch processLineSequential
    simp only [hcur, ht, hrule, htry]
    exact if_pos trivial
  have hscan : scanHistoryForStep s idx =
      finalizeStep s idx "PASS" (some (.payload "")) := by
    unfold scanHistoryForStep
    rw [if_neg (by simp; omega)]
    simp only [ht, hrule]
    rfl
  have hres : stepEvent perform s .catchup = scanHistoryForStep s idx := by
    show (match s.firstUnfinished with
          | some cur => scanHistoryForStep s cur
          | none => (s, [])) = _
    rw [hcur]
  refine ⟨?_, ?_, ?_, ?_⟩
  · rw [hdisp, finalizeStep_tests, getStep_updStep_self, getStep_updStep_self, ht]
    rfl
  · rw [hdisp, finalizeStep_emits]
  · rw [hres, hscan, finalizeStep_tests, getStep_updStep_self, ht]
    rfl
  · rw [hres, hscan, finalizeStep_emits]

/-- Witness for C10: a session whose only step is an empty sequence. -/
theorem c10_witness :
    ((initSession [⟨.sequence [], none⟩] 5).firstUnfinished = some 1)
    ∧ (getStep (initSession [⟨.sequence [], none⟩] 5).tests 1
        = some { rule := .sequence [], timeout := none, done := false,
                 seqIdx := 0, t0 := 5, finalResult := none, finalLine := none })
    ∧ ({ rule := .sequence [], timeout := none, done := false, seqIdx := 0,
         t0 := 5, finalResult := none, finalLine := none } : Step).rule = .sequence []
    ∧ ((getStep (processLineDispatch performNone
          (initSession [⟨.sequence [], none⟩] 5) "x").1.tests 1).map
          (fun u => (u.done, u.finalResult)) = some (true, some "PASS")
      ∧ (processLineDispatch performNone
          (initSession [⟨.sequence [], none⟩] 5) "x").2 =
          [⟨1, "PASS", some (.payload (dispatchPayload "x"))⟩]
      ∧ (getStep (stepEvent performNone
          (initSession [⟨.sequence [], none⟩] 5) .catchup).1.tests 1).map
          (fun u => (u.done, u.finalResult)) = some (true, some "PASS")
      ∧ (stepEvent performNone (initSession [⟨.sequence [], none⟩] 5) .catchup).2 =
          [⟨1, "PASS", some (.payload "")⟩]) :=
  ⟨rfl, rfl, rfl,
   c10_empty_sequence_passes_immediately performNone
     (initSession [⟨.sequence [], none⟩] 5) 1 _ "x" rfl rfl rfl⟩

/-- Claim C9 (counterexample): the sanitizer is not idempotent.  The
all-caps repeat-collapsing substitution is applied in one pass: on
`"ABCABCABCABC"` the first pass yields `"ABCABC"` (the group `ABCABC`
repeated twice collapses to one copy), and sanitizing that output again
yields `"ABC"`. -/
theorem c9_counterexample_not_idempotent :
    sanitize_payload "ABCABCABCABC" = "ABCABC"
    ∧ sanitize_payload (sanitize_payload "ABCABCABCABC") = "ABC"
    ∧ sanitize_payload (sanitize_payload "ABCABCABCABC")
        ≠ sanitize_payload "ABCABCABCABC" := by
  have h1 : sanitize_payload "ABCABCABCABC" = "ABCABC" := rfl
  have h2 : sanitize_payload (sanitize_payload "ABCABCABCABC") = "ABC" := rfl
  refine ⟨h1, h2, ?_⟩
  rw [h2, h1]
  decide

/-- Claim C9 (amended): the sanitizer is idempotent on every string that
contains no ASCII uppercase letter and no `>` — on such inputs the token
removal, repeat collapsing, `=TAG` stripping and `>>` normalization are
all no-ops, and whitespace collapsing plus stripping is idempotent. -/
theorem c9_amended_idempotent_on_plain (s : String) (h : NoUpperNoGt s) :
    sanitize_payload (sanitize_payload s) = sanitize_payload s := by
  rcases s with ⟨l⟩
  cases l with
  | nil => rfl
  | cons c rs =>
    have h' : ∀ x ∈ c :: rs, isUpperAZ x = false ∧ x ≠ '>' := h
    have h1 : sanitize_payload (String.mk (c :: rs))
        = String.mk (sanitizeList (c :: rs)) := rfl
    rw [h1]
    cases hm : sanitizeList (c :: rs) with
    | nil => rfl
    | cons d ds =>
      have h2 : sanitize_payload (String.mk (d :: ds))
          = String.mk (sanitizeList (d :: ds)) := rfl
      rw [h2]
      have h3 := sanitizeList_idem (c :: rs) h'
      rw [hm] at h3
      rw [h3]

/-- Witness for the amended C9 at the concrete input `"ab  cd"`. -/
theorem c9_amended_witness :
    NoUpperNoGt "ab  cd" ∧
    sanitize_payload (sanitize_payload "ab  cd") = sanitize_payload "ab  cd" :=
  ⟨by unfold NoUpperNoGt; decide,
   c9_amended_idempotent_on_plain "ab  cd" (by unfold NoUpperNoGt; decide)⟩
